import Mathlib

/-!
Verification development for the pdf2md resume pipeline.

The repository's core is `src/app/action/dataExtractor.ts`
(`extractResumeData`): a sequence of JavaScript regular-expression
matches over the concatenated OCR text.  Every regex used there is
alternation-free up to character classes, so each one is hand-compiled
below into a deterministic scanning function over `List Char`, with the
JS backtracking order (greedy quantifiers backtracking from the longest
attempt, leftmost starting position first) made explicit by the
`tryBack` combinator.  Storage (`src/app/utils/storageUtils.ts`) and the
Excel template filler (`src/app/action/excelGenerator.ts`) are embedded
as pure state-passing functions.
-/

namespace Pdf2Md

/-! ### JavaScript character classes

`jsSpace` is the exact set matched by `\s` in JS regexes (WhiteSpace ∪
LineTerminator, ECMA-262); it is also the set removed by
`String.prototype.trim`.  `jsDigit` is `\d` (ASCII only).  `dotCh` is
`.` without the `s` flag: any char except the four line terminators. -/

def jsSpace (c : Char) : Bool :=
  c.toNat = 9 || c.toNat = 10 || c.toNat = 11 || c.toNat = 12 || c.toNat = 13 ||
  c.toNat = 32 || c.toNat = 160 || c.toNat = 5760 ||
  (8192 ≤ c.toNat && c.toNat ≤ 8202) || c.toNat = 8232 || c.toNat = 8233 ||
  c.toNat = 8239 || c.toNat = 8287 || c.toNat = 12288 || c.toNat = 65279

/-- `\d` (ASCII `0`–`9`, code points 48–57). -/
def jsDigit (c : Char) : Bool :=
  48 ≤ c.toNat && c.toNat ≤ 57

/-- `[^\n\r]` -/
def notNL (c : Char) : Bool :=
  !(c.toNat = 10 || c.toNat = 13)

/-- `.` (no `s` flag): any char except the LineTerminators `\n`, `\r`,
U+2028, U+2029. -/
def dotCh (c : Char) : Bool :=
  !(c.toNat = 10 || c.toNat = 13 || c.toNat = 8232 || c.toNat = 8233)

/-- `[：:]` — `：` is U+FF1A (65306). -/
def colonCh (c : Char) : Bool :=
  c.toNat = 65306 || c.toNat = 58

/-- `[^\n\r（(]` (birth-date capture class) — `（` is U+FF08 (65288). -/
def bdCh (c : Char) : Bool :=
  notNL c && !(c.toNat = 65288 || c.toNat = 40)

/-- `[0-9\-]` (phone-number capture class). -/
def phoneCh (c : Char) : Bool :=
  jsDigit c || c.toNat = 45

/-- `[あり|なし]` — a character CLASS over the five glyphs, as written in
the source (not the alternation `あり|なし`): あ U+3042, り U+308A,
`|` U+007C, な U+306A, し U+3057. -/
def spouseCh (c : Char) : Bool :=
  c.toNat = 12354 || c.toNat = 12426 || c.toNat = 124 ||
  c.toNat = 12394 || c.toNat = 12375

/-- `[^\s]` (email capture class). -/
def nonSpace (c : Char) : Bool :=
  !jsSpace c

/-- `String.prototype.trim` on the character list. -/
def jsTrim (l : List Char) : List Char :=
  ((l.dropWhile jsSpace).reverse.dropWhile jsSpace).reverse

/-- Value of an all-digit capture under `parseInt(s, 10)`. -/
def digitsToNat (l : List Char) : Nat :=
  l.foldl (fun a c => a * 10 + (c.toNat - '0'.toNat)) 0

/-! ### Backtracking combinators

`tryBack k rev tail` resumes a greedy quantifier that has consumed the
characters `rev.reverse` in front of `tail`: it first runs the
continuation `k` at the current (longest) position and then gives back
one consumed character at a time, exactly the JS backtracking order. -/

def tryBack (k : List Char → Option α) : List Char → List Char → Option α
  | [], tail => k tail
  | c :: rev, tail =>
    match k tail with
    | some r => some r
    | none => tryBack k rev (c :: tail)

/-- `\s*` (greedy, with backtracking) followed by the continuation `k`. -/
def afterWs (k : List Char → Option α) (s : List Char) : Option α :=
  tryBack k (s.takeWhile jsSpace).reverse (s.dropWhile jsSpace)

/-- `[：:]*\s*` followed by `k` (shared by every label-anchored field). -/
def afterColons (k : List Char → Option α) (s : List Char) : Option α :=
  tryBack (afterWs k) (s.takeWhile colonCh).reverse (s.dropWhile colonCh)

/-- A final greedy capture `([cls]+)` with nothing after it: it succeeds
exactly when the first character is in the class, and captures the
maximal run. -/
def capPlus (ok : Char → Bool) : List Char → Option (List Char)
  | [] => none
  | c :: t => if ok c then some ((c :: t).takeWhile ok) else none

/-- Leftmost-match search: try the pattern at every start position in
order (JS advances the start by one after each failed attempt). -/
def findFirst (p : List Char → Option α) : List Char → Option α
  | [] => p []
  | c :: t =>
    match p (c :: t) with
    | some r => some r
    | none => findFirst p t

/-- Anchor a literal label at the current position. -/
def withLabel (label : List Char) (k : List Char → Option α) (s : List Char) : Option α :=
  if label.isPrefixOf s then k (s.drop label.length) else none

/-- A scalar field finder `/LABEL[：:]*\s*([cls]+)/` (first match over
the whole text, capture returned untrimmed). -/
def scalarFind (label : List Char) (ok : Char → Bool) (text : List Char) : Option (List Char) :=
  findFirst (withLabel label (afterColons (capPlus ok))) text

/-! ### The individual field matchers of `extractResumeData`
(src/app/action/dataExtractor.ts, lines 56–206). -/

/-- `/性別[：:]*\s*([男女])/` — the capture is a single character out of
`[男女]`; no whitespace or colon belongs to that class, so backtracking
through `\s*`/`[：:]*` can never succeed and the first attempt decides. -/
def genderK : List Char → Option Char
  | [] => none
  | c :: _ => if c = '男' || c = '女' then some c else none

def genderFind (text : List Char) : Option Char :=
  findFirst (withLabel "性別".data (afterColons genderK)) text

/-- `/現住所[：:]*\s*([^\n\r]+)(?:\n|\r|$)/` — after a maximal `[^\n\r]+`
run the next character is necessarily `\n`, `\r` or the end, so the
trailing group is recorded but can never fail. -/
def addrK (t : List Char) : Option (List Char) :=
  match capPlus notNL t with
  | none => none
  | some cap =>
    match t.drop cap.length with
    | [] => some cap
    | c :: _ => if c = '\n' || c = '\r' then some cap else none

def addrFind (text : List Char) : Option (List Char) :=
  findFirst (withLabel "現住所".data (afterColons addrK)) text

/-- `/〒\s*(\d{3}-\d{4})/` run against the (untrimmed) address capture.
The fixed-width `\d{3}` / `\d{4}` groups admit no backtracking, and
`\s` is disjoint from `\d`, so the match at a given `〒` is decided
outright; on failure the engine moves the start position. -/
def postalAt : List Char → Option (List Char)
  | [] => none
  | c :: t =>
    if c = '〒' then
      let w := t.dropWhile jsSpace
      let d3 := w.take 3
      if d3.length = 3 && d3.all jsDigit then
        match w.drop 3 with
        | '-' :: u =>
          let d4 := u.take 4
          if d4.length = 4 && d4.all jsDigit then
            some (d3 ++ '-' :: d4)
          else none
        | _ => none
      else none
    else none

def postalScan (cap : List Char) : Option (List Char) :=
  findFirst postalAt cap

/-- The tail `[（(]\s*満\s*(\d+)\s*歳` of the age regex.  Each `\s*` here
is followed by a literal or a digit, both outside `\s`, so plain
`dropWhile` is the exact greedy semantics. -/
def ageTail (u : List Char) : Option Nat :=
  match u.dropWhile jsSpace with
  | '満' :: u2 =>
    let u3 := u2.dropWhile jsSpace
    let d := u3.takeWhile jsDigit
    if d.isEmpty then none
    else
      match (u3.drop d.length).dropWhile jsSpace with
      | '歳' :: _ => some (digitsToNat d)
      | _ => none
  | _ => none

/-- `[^\n\r（(]+[（(]…` — a greedy run of `bdCh` (at least one char)
followed by an opening parenthesis.  A shorter run leaves a `bdCh`
character (never a parenthesis) at the boundary, so only the maximal
run can be followed by `[（(]`; but giving characters back to the outer
`\s*`/`[：:]*` quantifiers is possible and is handled by `afterColons`. -/
def ageAfterRun : List Char → Option Nat
  | [] => none
  | c :: t =>
    if bdCh c then
      match (c :: t).dropWhile bdCh with
      | '（' :: u => ageTail u
      | '(' :: u => ageTail u
      | _ => none
    else none

/-- `/生年月日[：:]*\s*[^\n\r（(]+[（(]\s*満\s*(\d+)\s*歳/` (line 73). -/
def ageFind (text : List Char) : Option Nat :=
  findFirst (withLabel "生年月日".data (afterColons ageAfterRun)) text

/-- `([^\s]+@[^\s]+)` — the first `[^\s]+` backtracks from the maximal
non-space run until an `@` with at least one non-space character after
it is exposed; whichever `@` is chosen, the capture is the whole
maximal non-space run. -/
def emailK : List Char → Option (List Char)
  | [] => none
  | c :: t =>
    if jsSpace c then none
    else
      let run := (c :: t).takeWhile nonSpace
      if ((run.drop 1).dropLast).any (· = '@') then some run else none

/-- `E[-\s]?mail` — the greedy optional character is tried first; the
two alternatives can never both match (the optional char cannot be
`m`), so no cross-branch backtracking arises. -/
def emailLabel (k : List Char → Option α) : List Char → Option α
  | 'E' :: rest =>
    match rest with
    | c :: rest2 =>
      if (c = '-' || jsSpace c) && "mail".data.isPrefixOf rest2 then
        k (rest2.drop 4)
      else if "mail".data.isPrefixOf rest then k (rest.drop 4)
      else none
    | [] => none
  | _ => none

/-- `/E[-\s]?mail[：:]*\s*([^\s]+@[^\s]+)/` (line 104). -/
def emailFind (text : List Char) : Option (List Char) :=
  findFirst (emailLabel (afterColons emailK)) text

/-- `/扶養家族数[（(]配偶者を除く[）)][：:]*\s*(\d+)/` (line 191). -/
def depLabel (k : List Char → Option α) (s : List Char) : Option α :=
  if "扶養家族数".data.isPrefixOf s then
    match s.drop 5 with
    | c :: t =>
      if (c = '（' || c = '(') && "配偶者を除く".data.isPrefixOf t then
        match t.drop 6 with
        | c2 :: t2 =>
          if c2 = '）' || c2 = ')' then afterColons k t2 else none
        | [] => none
      else none
    | [] => none
  else none

def depFind (text : List Char) : Option Nat :=
  findFirst (depLabel (fun t => (capPlus jsDigit t).map digitsToNat)) text

/-- `pat` occurs as a contiguous substring (JS `String.includes`). -/
def hasSub (pat : List Char) : List Char → Bool
  | [] => pat.isPrefixOf []
  | c :: t => pat.isPrefixOf (c :: t) || hasSub pat t

/-! ### Section extraction (lines 110, 131, 152)

`/HEADER\s*\n([\s\S]*?)(?:TERM₁|…|$)/` — the greedy `\s*` backtracks
until the character it hands over is a `\n` (i.e. it stops right after
the last newline of the maximal whitespace run); the lazy `[\s\S]*?`
then grows from the empty string, and at each stop the alternation
tries the literal terminators before `$`, so the capture runs to the
NEAREST terminator occurrence, or to the end of text if none occurs.
Because `$` is always available at the end, the whole regex matches at
a position iff `HEADER\s*\n` does, so leftmost search only inspects the
header part. -/

/-- The continuation after the greedy `\s*` of a section header: the
regex still has to place a literal `\n`. -/
def newlineK : List Char → Option (List Char)
  | '\n' :: r => some r
  | _ => none

def headerAt (header : List Char) (s : List Char) : Option (List Char) :=
  if header.isPrefixOf s then
    afterWs newlineK (s.drop header.length)
  else none

/-- The lazy capture: everything before the first position where one of
the terminators starts (or the whole rest if none matches). -/
def takeUntil (terms : List (List Char)) : List Char → List Char
  | [] => []
  | c :: t =>
    if terms.any (fun p => p.isPrefixOf (c :: t)) then []
    else c :: takeUntil terms t

def sectionFind (header : List Char) (terms : List (List Char)) (text : List Char) :
    Option (List Char) :=
  findFirst (fun s =>
    match headerAt header s with
    | some body => some (takeUntil terms body)
    | none => none) text

/-- `/学歴\s*\n([\s\S]*?)(?:職歴|$)/` (line 110). -/
def eduCapture (text : List Char) : Option (List Char) :=
  sectionFind "学歴".data ["職歴".data] text

/-- `/職歴\s*\n([\s\S]*?)(?:免許・資格|健康状態|趣味|$)/` (line 131). -/
def workCapture (text : List Char) : Option (List Char) :=
  sectionFind "職歴".data ["免許・資格".data, "健康状態".data, "趣味".data] text

/-- `/免許・資格\s*\n([\s\S]*?)(?:健康状態|趣味|$)/` (line 152). -/
def licCapture (text : List Char) : Option (List Char) :=
  sectionFind "免許・資格".data ["健康状態".data, "趣味".data] text

/-! ### Entry rows: `/(\d+)\s*年\s*(\d+)\s*月\s*([^\n\r]+)/g` and the
row decomposition `/(\d+)\s*年\s*(\d+)\s*月\s*(.+)/` (lines 113–125).

Both share the same front `(\d+)\s*年\s*(\d+)\s*月`; within it every
greedy run (`\d+`, `\s*`) borders on a character outside its own class,
so no backtracking can alter the outcome and `takeWhile`/`dropWhile`
are exact.  The final `\s*(cls+)` interplay is genuine (a `\s` char may
also be in `cls`) and goes through `afterWs`. -/

/-- Parse the common front at the current position.  Returns
`(year digits, month digits, consumed characters, rest)`. -/
def ymFront (s : List Char) : Option (List Char × List Char × List Char × List Char) :=
  let d1 := s.takeWhile jsDigit
  if d1.isEmpty then none
  else
    let t1 := s.dropWhile jsDigit
    let w1 := t1.takeWhile jsSpace
    match t1.dropWhile jsSpace with
    | '年' :: t2 =>
      let w2 := t2.takeWhile jsSpace
      let t2' := t2.dropWhile jsSpace
      let d2 := t2'.takeWhile jsDigit
      if d2.isEmpty then none
      else
        let t3 := t2'.dropWhile jsDigit
        let w3 := t3.takeWhile jsSpace
        match t3.dropWhile jsSpace with
        | '月' :: rest =>
          some (d1, d2, d1 ++ w1 ++ '年' :: (w2 ++ d2 ++ w3 ++ ['月']), rest)
        | _ => none
    | _ => none

/-- The whole-match variant of the greedy `\s*([^\n\r]+)` tail: returns
the whitespace actually consumed together with the capture, so the `/g`
scan can advance past the full matched substring. -/
def wsCapAux (ok : Char → Bool) : List Char → List Char → Option (List Char × List Char)
  | [], tail => (capPlus ok tail).map (fun cap => (([] : List Char).reverse, cap))
  | c :: wRev', tail =>
    match capPlus ok tail with
    | some cap => some ((c :: wRev').reverse, cap)
    | none => wsCapAux ok wRev' (c :: tail)

def wsCap (ok : Char → Bool) (s : List Char) : Option (List Char × List Char) :=
  wsCapAux ok (s.takeWhile jsSpace).reverse (s.dropWhile jsSpace)

/-- One attempt of the outer `/g` pattern at the current position,
returning the matched substring `m` (the scan resumes after `m`). -/
def matchEntryAt (s : List Char) : Option (List Char) :=
  match ymFront s with
  | none => none
  | some (_, _, con, rest) =>
    match wsCap notNL rest with
    | none => none
    | some (w, cap) => some (con ++ w ++ cap)

/-- The `/g` scan of `String.prototype.match`: collect the leftmost
match, resume immediately after the matched substring, and advance one
position past a failed attempt.  (A successful match here always
consumes at least one character, so `lastIndex` bookkeeping for empty
matches never triggers.)  The structural `fuel` argument only bounds
the recursion depth: every step strictly shortens the input
(`matchEntryAt_len`), so any fuel above the input length — as passed by
`gScan`, see `gScanAux_fuel_irrelevant` — never runs out. -/
def gScanCont (rec : List Char → List (List Char)) (s : List Char) :
    List (List Char) :=
  match matchEntryAt s with
  | some m => m :: rec (s.drop m.length)
  | none =>
    match s with
    | [] => []
    | _ :: t => rec t

def gScanAux : Nat → List Char → List (List Char)
  | 0, _ => []
  | fuel + 1, s => gScanCont (gScanAux fuel) s

def gScan (s : List Char) : List (List Char) :=
  gScanAux (s.length + 1) s

/-- One attempt of the inner decomposition
`/(\d+)\s*年\s*(\d+)\s*月\s*(.+)/` at the current position. -/
def innerAt (s : List Char) : Option (List Char × List Char × List Char) :=
  match ymFront s with
  | none => none
  | some (d1, d2, _, rest) =>
    (afterWs (capPlus dotCh) rest).map (fun cap => (d1, d2, cap))

/-- The (unanchored, non-global) inner match: leftmost attempt wins. -/
def innerScan (s : List Char) : Option (List Char × List Char × List Char) :=
  findFirst innerAt s

structure HistEntry where
  year : String
  month : String
  description : String
deriving DecidableEq, Repr

/-- Lines 116–126: decompose one `/g`-matched row; the fallback entry
keeps empty year/month and the trimmed raw match as description. -/
def mkEntry (m : List Char) : HistEntry :=
  match innerScan m with
  | some (y, mo, desc) => ⟨String.mk y, String.mk mo, String.mk (jsTrim desc)⟩
  | none => ⟨"", "", String.mk (jsTrim m)⟩

/-- Lines 111–127: the section must have matched with a truthy (i.e.
non-empty) capture, and the `/g` scan must have found at least one row
(`match` returns `null`, a falsy value, when there is none). -/
def sectionEntries (capO : Option (List Char)) : Option (List HistEntry) :=
  match capO with
  | none => none
  | some cap =>
    if cap.isEmpty then none
    else
      match gScan cap with
      | [] => none
      | ms => some (ms.map mkEntry)

/-! ### The extracted record and the extractor itself
(src/app/action/dataExtractor.ts lines 5–37 and 42–208). -/

structure ExtractedResumeData where
  name : Option String := none
  nameKana : Option String := none
  birthDate : Option String := none
  gender : Option String := none
  age : Option Nat := none
  address : Option String := none
  addressKana : Option String := none
  postalCode : Option String := none
  phoneNumber : Option String := none
  email : Option String := none
  alternativeAddress : Option String := none
  alternativeAddressKana : Option String := none
  alternativePhoneNumber : Option String := none
  educationHistory : Option (List HistEntry) := none
  workHistory : Option (List HistEntry) := none
  licenses : Option (List HistEntry) := none
  healthCondition : Option String := none
  hobbies : Option String := none
  nearestStation : Option String := none
  dependents : Option Nat := none
  hasSpouse : Option Bool := none
  supportingSpouse : Option Bool := none
deriving DecidableEq, Repr

/-- A trimmed string field: set iff the label pattern matched (a `+`
capture is never the empty string, so the truthiness test on the raw
capture passes exactly when the regex matched). -/
def trimmedField (capO : Option (List Char)) : Option String :=
  capO.map (fun cap => String.mk (jsTrim cap))

/-- The field-by-field extraction over the concatenated page text.
Every field is an independent first-match search over `text`, in the
source's order; the record below keeps the data and control dependences
of the source (age nested under birth date, postal code nested under
address), and nothing else. -/
def extractCore (text : List Char) : ExtractedResumeData :=
  let birthM := scalarFind "生年月日".data bdCh text
  let addrM := addrFind text
  { name := trimmedField (scalarFind "氏名".data notNL text)
    nameKana := trimmedField (scalarFind "ふりがな".data notNL text)
    birthDate := trimmedField birthM
    -- line 73: the age match is attempted only inside the birth-date branch
    age := match birthM with
      | some _ => ageFind text
      | none => none
    gender := (genderFind text).map (fun c => String.mk (jsTrim [c]))
    address := trimmedField addrM
    -- line 91: the postal code is searched inside the address capture
    postalCode := match addrM with
      | some cap => (postalScan cap).map String.mk
      | none => none
    phoneNumber := trimmedField (findFirst
      (withLabel "電話番号".data (afterColons (capPlus phoneCh))) text)
    email := trimmedField (emailFind text)
    educationHistory := sectionEntries (eduCapture text)
    workHistory := sectionEntries (workCapture text)
    licenses := sectionEntries (licCapture text)
    healthCondition := trimmedField (scalarFind "健康状態".data notNL text)
    hobbies := trimmedField (scalarFind "趣味・特技".data notNL text)
    nearestStation := trimmedField (scalarFind "最寄り駅".data notNL text)
    dependents := depFind text
    hasSpouse := (scalarFind "配偶者の有無".data spouseCh text).map
      (fun cap => hasSub "あり".data cap)
    supportingSpouse := (scalarFind "配偶者の扶養義務".data spouseCh text).map
      (fun cap => hasSub "あり".data cap) }

/-- One OCR page: `markdown` may be absent (`page.markdown || ""`). -/
structure OCRPage where
  markdown : Option String
deriving DecidableEq, Repr

/-- `OCRResponse` as consumed by the extractor: the `pages` array may
itself be absent. -/
structure OCRResponse where
  pages : Option (List OCRPage)
deriving DecidableEq, Repr

def joinPages : List (List Char) → List Char
  | [] => []
  | [p] => p
  | p :: q :: r => p ++ '\n' :: '\n' :: joinPages (q :: r)

/-- Lines 48–50: `pages.map(page => page.markdown || "").join("\n\n")`. -/
def allTextOf (pages : List OCRPage) : List Char :=
  joinPages (pages.map (fun p => (p.markdown.getD "").data))

def ocrErrMsg : String := "有効なOCR結果がありません"

/-- `extractResumeData` (lines 42–208).  The argument is optional to
model a null/undefined `ocrResult`; the only raising path is the
guard on lines 43–45. -/
def extractResumeData (ocrResult : Option OCRResponse) : Except String ExtractedResumeData :=
  match ocrResult with
  | none => .error ocrErrMsg
  | some r =>
    match r.pages with
    | none => .error ocrErrMsg
    | some [] => .error ocrErrMsg
    | some ps => .ok (extractCore (allTextOf ps))


/-! ### History storage (src/app/utils/storageUtils.ts)

`localStorage` under the single key `pdf2md_ocr_results` is modelled as
one slot whose decoded content is `absent` (no item), `corrupt`
(`JSON.parse` throws), or a stored list; `getThrows`/`setThrows` flag a
storage layer whose `getItem`/`setItem` call throws.  `Date.now()` and
`generateUniqueId()` are environment inputs and are passed in as
arguments. -/

structure StoredOCRResult where
  id : String
  timestamp : Nat
  filename : String
  result : OCRResponse
deriving DecidableEq, Repr

inductive SlotVal where
  | absent : SlotVal
  | corrupt : SlotVal
  | val : List StoredOCRResult → SlotVal
deriving DecidableEq, Repr

structure LocalStorage where
  content : SlotVal
  getThrows : Bool
  setThrows : Bool
deriving DecidableEq, Repr

/-- `getStoredOCRResults` (lines 50–60): any throw inside the `try`
(from `getItem` or `JSON.parse`) is caught and yields `[]`; a missing
item yields `[]`. -/
def getStoredOCRResults (ls : LocalStorage) : List StoredOCRResult :=
  if ls.getThrows then []
  else
    match ls.content with
    | .absent => []
    | .corrupt => []
    | .val l => l

/-- `saveOCRResult` (lines 19–45): prepend the new record, cap at 10,
write back (ignoring a `setItem` throw), and return the new record
unconditionally. -/
def saveOCRResult (ls : LocalStorage) (result : OCRResponse) (filename : String)
    (newId : String) (now : Nat) : LocalStorage × StoredOCRResult :=
  let existingResults := getStoredOCRResults ls
  let newResult : StoredOCRResult :=
    { id := newId, timestamp := now, filename := filename, result := result }
  let limitedResults := (newResult :: existingResults).take 10
  let ls' := if ls.setThrows then ls else { ls with content := .val limitedResults }
  (ls', newResult)

/-- `deleteStoredOCRResult` (lines 73–88): filter out the id; report
`false` when nothing was removed; a `setItem` throw is caught and also
reported as `false` (leaving the slot unchanged). -/
def deleteStoredOCRResult (ls : LocalStorage) (id : String) : LocalStorage × Bool :=
  let results := getStoredOCRResults ls
  let filteredResults := results.filter (fun r => r.id ≠ id)
  if results.length = filteredResults.length then (ls, false)
  else if ls.setThrows then (ls, false)
  else ({ ls with content := .val filteredResults }, true)

/-! ### Excel template filler (src/app/action/excelGenerator.ts)

The worksheet is a map from cell address (e.g. `"B3"`) to an optional
cell value; the template filler's effect is the ordered list of
`worksheet.getCell(addr).value = v` writes it performs, applied over
the template sheet.  File I/O, the blob upload and the workbook
(de)serialisation are vendor calls outside the model. -/

inductive CellVal where
  | s : String → CellVal
  | n : Nat → CellVal
deriving DecidableEq, Repr

abbrev Sheet := String → Option CellVal

def emptySheet : Sheet := fun _ => none

def applyWrites (ws : List (String × CellVal)) (sh : Sheet) : Sheet :=
  ws.foldl (fun acc w => fun a => if a = w.1 then some w.2 else acc a) sh

/-- Line 47: `/(\d+)\s*年\s*(\d+)\s*月\s*(\d+)\s*日/` over the stored
birth-date string (first match; every greedy run borders a character
outside its class, so `takeWhile`/`dropWhile` are exact). -/
def ymdAt (s : List Char) : Option (List Char × List Char × List Char) :=
  match ymFront s with
  | none => none
  | some (d1, d2, _, rest) =>
    let w4 := rest.dropWhile jsSpace
    let d3 := w4.takeWhile jsDigit
    if d3.isEmpty then none
    else
      match (w4.drop d3.length).dropWhile jsSpace with
      | '日' :: _ => some (d1, d2, d3)
      | _ => none

/-- Length of the first match of `/〒\s*\d{3}-\d{4}\s*/` at the current
position (line 71, the postal strip inside the address write). -/
def postalSpanAt : List Char → Option Nat
  | [] => none
  | c :: t =>
    if c = '〒' then
      let w := t.takeWhile jsSpace
      let u := t.dropWhile jsSpace
      let d3 := u.take 3
      if d3.length = 3 && d3.all jsDigit then
        match u.drop 3 with
        | '-' :: v =>
          let d4 := v.take 4
          if d4.length = 4 && d4.all jsDigit then
            some (1 + w.length + 3 + 1 + 4 + ((v.drop 4).takeWhile jsSpace).length)
          else none
        | _ => none
      else none
    else none

/-- `String.replace` with a non-global regex: remove the first match. -/
def stripPostal : List Char → List Char
  | [] => []
  | c :: t =>
    match postalSpanAt (c :: t) with
    | some k => (c :: t).drop k
    | none => c :: stripPostal t

/-- `resumeData.age || ''` — note that an age of 0 is falsy in JS. -/
def ageStr : Option Nat → String
  | some n => if n = 0 then "" else toString n
  | none => ""

/-- The repeated-row `forEach` loops (lines 85–118): one row of three
cells per entry, starting at `startRow`, no bound check. -/
def listRows (colY colM colD : String) : Nat → List HistEntry → List (String × CellVal)
  | _, [] => []
  | r, e :: es =>
    (colY ++ toString r, .s e.year) :: (colM ++ toString r, .s e.month) ::
      (colD ++ toString r, .s e.description) :: listRows colY colM colD (r + 1) es

/-- One guarded single-cell transfer: `if (field) { ws.getCell(CELL).value = f(field) }`. -/
def optCell {β : Type} (o : Option β) (cell : String) (f : β → CellVal) :
    List (String × CellVal) :=
  match o with
  | some x => [(cell, f x)]
  | none => []

/-- The composite A5 value (line 49): the stored birth date re-parsed as
`Y年M月D日`, with `resumeData.age || ''` in the parenthetical. -/
def birthA5 (d : ExtractedResumeData) (v : String) : CellVal :=
  match findFirst ymdAt v.data with
  | some (y, m, dd) =>
    .s (String.mk y ++ "年 " ++ String.mk m ++ "月 " ++ String.mk dd ++
      "日生 （ 満 " ++ ageStr d.age ++ "歳 ）")
  | none => .s v

def nameWrites (d : ExtractedResumeData) : List (String × CellVal) :=
  optCell d.name "B3" .s

def nameKanaWrites (d : ExtractedResumeData) : List (String × CellVal) :=
  optCell d.nameKana "B2" .s

def birthDateWrites (d : ExtractedResumeData) : List (String × CellVal) :=
  optCell d.birthDate "A5" (birthA5 d)

def genderWrites (d : ExtractedResumeData) : List (String × CellVal) :=
  optCell d.gender "D2" .s

def addressKanaWrites (d : ExtractedResumeData) : List (String × CellVal) :=
  optCell d.addressKana "B6" .s

def postalCodeWrites (d : ExtractedResumeData) : List (String × CellVal) :=
  optCell d.postalCode "B7" (fun v => .s ("〒 " ++ v))

def addressWrites (d : ExtractedResumeData) : List (String × CellVal) :=
  optCell d.address "A7" (fun v => .s (String.mk (stripPostal v.data)))

def phoneWrites (d : ExtractedResumeData) : List (String × CellVal) :=
  optCell d.phoneNumber "F6" .s

def emailWrites (d : ExtractedResumeData) : List (String × CellVal) :=
  optCell d.email "F7" .s

def eduWrites (d : ExtractedResumeData) : List (String × CellVal) :=
  match d.educationHistory with
  | some l => if 0 < l.length then listRows "A" "B" "C" 14 l else []
  | none => []

def workWrites (d : ExtractedResumeData) : List (String × CellVal) :=
  match d.workHistory with
  | some l => if 0 < l.length then listRows "A" "B" "C" 20 l else []
  | none => []

def licWrites (d : ExtractedResumeData) : List (String × CellVal) :=
  match d.licenses with
  | some l => if 0 < l.length then listRows "I" "J" "K" 14 l else []
  | none => []

def healthWrites (d : ExtractedResumeData) : List (String × CellVal) :=
  optCell d.healthCondition "I17" .s

def hobbiesWrites (d : ExtractedResumeData) : List (String × CellVal) :=
  optCell d.hobbies "I18" .s

def stationWrites (d : ExtractedResumeData) : List (String × CellVal) :=
  optCell d.nearestStation "I19" .s

def dependentsWrites (d : ExtractedResumeData) : List (String × CellVal) :=
  optCell d.dependents "L17" .n

def hasSpouseWrites (d : ExtractedResumeData) : List (String × CellVal) :=
  optCell d.hasSpouse "L18" (fun b => .s (if b then "あり" else "なし"))

def supportingSpouseWrites (d : ExtractedResumeData) : List (String × CellVal) :=
  optCell d.supportingSpouse "L19" (fun b => .s (if b then "あり" else "なし"))

/-- All cell writes of `generateResumeExcel` (lines 37–143), in source
order. -/
def resumeWrites (d : ExtractedResumeData) : List (String × CellVal) :=
  nameWrites d ++ nameKanaWrites d ++ birthDateWrites d ++ genderWrites d ++
  addressKanaWrites d ++ postalCodeWrites d ++ addressWrites d ++ phoneWrites d ++
  emailWrites d ++ eduWrites d ++ workWrites d ++ licWrites d ++ healthWrites d ++
  hobbiesWrites d ++ stationWrites d ++ dependentsWrites d ++ hasSpouseWrites d ++
  supportingSpouseWrites d

/-- The template filler's effect on the sheet: perform every write on a
copy of the template (the workbook/file/blob plumbing around it is
vendor delegation outside the model). -/
def generateResumeExcel (d : ExtractedResumeData) (template : Sheet) : Sheet :=
  applyWrites (resumeWrites d) template

def eduExample : String := "学歴\n2020年4月 A高校入学\n2023年3月 A高校卒業\n職歴\n2023年4月 B社入社"

def eduCx : String := "学歴\n2020年4月 X高校入学\n健康状態\n2021年5月 通院なし"

/-- A full 10-entry history slot for exercising the eviction path. -/
def wLs : LocalStorage :=
  ⟨.val [⟨"j0", 10, "a", ⟨none⟩⟩, ⟨"j1", 9, "a", ⟨none⟩⟩, ⟨"j2", 8, "a", ⟨none⟩⟩,
    ⟨"j3", 7, "a", ⟨none⟩⟩, ⟨"j4", 6, "a", ⟨none⟩⟩, ⟨"j5", 5, "a", ⟨none⟩⟩,
    ⟨"j6", 4, "a", ⟨none⟩⟩, ⟨"j7", 3, "a", ⟨none⟩⟩, ⟨"j8", 2, "a", ⟨none⟩⟩,
    ⟨"j9", 1, "a", ⟨none⟩⟩], false, false⟩

/-- The list `wLs` should hold after one more save: the new record in
front, the oldest entry evicted. -/
def wStored : List StoredOCRResult :=
  [⟨"new", 11, "f", ⟨none⟩⟩, ⟨"j0", 10, "a", ⟨none⟩⟩, ⟨"j1", 9, "a", ⟨none⟩⟩,
    ⟨"j2", 8, "a", ⟨none⟩⟩, ⟨"j3", 7, "a", ⟨none⟩⟩, ⟨"j4", 6, "a", ⟨none⟩⟩,
    ⟨"j5", 5, "a", ⟨none⟩⟩, ⟨"j6", 4, "a", ⟨none⟩⟩, ⟨"j7", 3, "a", ⟨none⟩⟩,
    ⟨"j8", 2, "a", ⟨none⟩⟩]

/-! ## Supporting lemmas -/

theorem capPlus_spec {ok : Char → Bool} {t cap : List Char}
    (h : capPlus ok t = some cap) : cap = t.takeWhile ok ∧ cap ≠ [] := by
  cases t with
  | nil => simp [capPlus] at h
  | cons c t' =>
    simp only [capPlus] at h
    split at h
    · rename_i hc
      cases h
      exact ⟨rfl, by simp [List.takeWhile_cons, hc]⟩
    · cases h

theorem wsCapAux_append {ok : Char → Bool} {wRev tail w cap : List Char}
    (h : wsCapAux ok wRev tail = some (w, cap)) :
    w ++ cap <+: wRev.reverse ++ tail ∧ cap ≠ [] := by
  induction wRev generalizing tail with
  | nil =>
    unfold wsCapAux at h
    cases hcp : capPlus ok tail with
    | none => rw [hcp] at h; cases h
    | some cap' =>
      rw [hcp] at h
      simp only [Option.map_some'] at h
      cases h
      obtain ⟨hc, hne⟩ := capPlus_spec hcp
      refine ⟨?_, hne⟩
      obtain ⟨r, hr⟩ : cap <+: tail := hc ▸ List.takeWhile_prefix ok
      exact ⟨r, by simp [hr]⟩
  | cons c wRev' ih =>
    unfold wsCapAux at h
    cases hcp : capPlus ok tail with
    | none =>
      rw [hcp] at h
      have := ih h
      simpa [List.reverse_cons, List.append_assoc] using this
    | some cap' =>
      rw [hcp] at h
      cases h
      obtain ⟨hc, hne⟩ := capPlus_spec hcp
      refine ⟨?_, hne⟩
      obtain ⟨r, hr⟩ : cap <+: tail := hc ▸ List.takeWhile_prefix ok
      exact ⟨r, by simp [List.append_assoc, hr]⟩

theorem ymFront_spec {s d1 d2 con rest : List Char}
    (h : ymFront s = some (d1, d2, con, rest)) :
    s = con ++ rest ∧ con ≠ [] := by
  simp only [ymFront] at h
  split at h
  · cases h
  · rename_i hd1
    split at h
    · rename_i t2 hsplit
      split at h
      · cases h
      · rename_i hd2
        split at h
        · rename_i rest' hsplit2
          cases h
          refine ⟨?_, ?_⟩
          · refine Eq.symm ?_
            simp only [List.append_assoc, List.cons_append, List.nil_append,
              List.singleton_append]
            rw [← hsplit2, List.takeWhile_append_dropWhile,
              List.takeWhile_append_dropWhile, List.takeWhile_append_dropWhile,
              ← hsplit, List.takeWhile_append_dropWhile,
              List.takeWhile_append_dropWhile]
          · intro hcon
            have h1 : s.takeWhile jsDigit = [] := by
              cases he : s.takeWhile jsDigit with
              | nil => rfl
              | cons a l =>
                rw [he] at hcon
                cases hcon
            rw [h1] at hd1
            simp [List.isEmpty] at hd1
        · cases h
    · cases h

theorem matchEntryAt_spec {s m : List Char} (h : matchEntryAt s = some m) :
    m ≠ [] ∧ m <+: s := by
  unfold matchEntryAt at h
  split at h
  · cases h
  · rename_i d1 d2 con rest hf
    split at h
    · cases h
    · rename_i w cap hw
      cases h
      obtain ⟨hs, hcon⟩ := ymFront_spec hf
      have hpre : w ++ cap <+: rest ∧ cap ≠ [] := by
        have := wsCapAux_append hw
        simpa [List.takeWhile_append_dropWhile] using this
      constructor
      · simp [hcon]
      · obtain ⟨r, hr⟩ := hpre.1
        exact hs ▸ ⟨r, by simp [← hr, List.append_assoc]⟩

theorem matchEntryAt_len {s m : List Char} (h : matchEntryAt s = some m) :
    0 < m.length ∧ m.length ≤ s.length := by
  obtain ⟨hne, hpre⟩ := matchEntryAt_spec h
  exact ⟨List.length_pos.mpr hne, hpre.length_le⟩

theorem gScanAux_fuel_irrelevant :
    ∀ {f1 : Nat} {s : List Char} (f2 : Nat), s.length < f1 → s.length < f2 →
      gScanAux f1 s = gScanAux f2 s := by
  intro f1
  induction f1 with
  | zero => intro s f2 h1 _; omega
  | succ n ih =>
    intro s f2 h1 h2
    cases f2 with
    | zero => omega
    | succ m =>
      show gScanCont (gScanAux n) s = gScanCont (gScanAux m) s
      unfold gScanCont
      cases hm : matchEntryAt s with
      | some mm =>
        obtain ⟨hp, hle⟩ := matchEntryAt_len hm
        have hlen : (s.drop mm.length).length < n := by
          simp only [List.length_drop]
          omega
        have hlen2 : (s.drop mm.length).length < m := by
          simp only [List.length_drop]
          omega
        simp only [ih m hlen hlen2]
      | none =>
        cases s with
        | nil => rfl
        | cons c t =>
          have ht1 : t.length < n := by simp at h1; omega
          have ht2 : t.length < m := by simp at h2; omega
          simp only [ih m ht1 ht2]


theorem not_space_dot {c : Char} (h : jsSpace c = false) : dotCh c = true := by
  simp only [jsSpace, Bool.or_eq_false_iff, Bool.and_eq_false_iff,
    decide_eq_false_iff_not] at h
  simp only [dotCh, Bool.not_eq_true', Bool.or_eq_false_iff,
    decide_eq_false_iff_not]
  omega

theorem space_not_digit {c : Char} (h : jsSpace c = true) : jsDigit c = false := by
  simp only [jsSpace, Bool.or_eq_true, Bool.and_eq_true, decide_eq_true_eq] at h
  simp only [jsDigit, Bool.and_eq_false_iff, decide_eq_false_iff_not]
  omega

theorem digit_not_space {c : Char} (h : jsDigit c = true) : jsSpace c = false := by
  simp only [jsDigit, Bool.and_eq_true, decide_eq_true_eq] at h
  simp only [jsSpace, Bool.or_eq_false_iff, Bool.and_eq_false_iff,
    decide_eq_false_iff_not]
  omega

theorem takeWhile_append_all {p : Char → Bool} {a : List Char} (b : List Char)
    (h : ∀ c ∈ a, p c = true) : (a ++ b).takeWhile p = a ++ b.takeWhile p := by
  induction a with
  | nil => simp
  | cons c t ih =>
    have hc : p c = true := h c (by simp)
    simp only [List.cons_append, List.takeWhile_cons, hc, if_true]
    rw [ih (fun x hx => h x (by simp [hx]))]

theorem dropWhile_append_all {p : Char → Bool} {a : List Char} (b : List Char)
    (h : ∀ c ∈ a, p c = true) : (a ++ b).dropWhile p = b.dropWhile p := by
  induction a with
  | nil => simp
  | cons c t ih =>
    have hc : p c = true := h c (by simp)
    simp only [List.cons_append, List.dropWhile_cons, hc, if_true]
    exact ih (fun x hx => h x (by simp [hx]))

theorem head_dropWhile_false {p : Char → Bool} :
    ∀ {l c t}, List.dropWhile p l = c :: t → p c = false
  | [], _, _, h => by rw [List.dropWhile_nil] at h; cases h
  | a :: l', c, t, h => by
    by_cases ha : p a
    · rw [List.dropWhile_cons, if_pos ha] at h
      exact head_dropWhile_false h
    · rw [List.dropWhile_cons, if_neg ha] at h
      cases h
      exact eq_false_of_ne_true ha

theorem tryBack_exists {α : Type} {k : List Char → Option α} :
    ∀ {rev tail : List Char} {r : α},
      tryBack k rev tail = some r → ∃ u, k u = some r ∧ u <:+ rev.reverse ++ tail := by
  intro rev
  induction rev with
  | nil =>
    intro tail r h
    rw [tryBack] at h
    exact ⟨tail, h, by simp⟩
  | cons c rev' ih =>
    intro tail r h
    rw [tryBack] at h
    cases hk : k tail with
    | some v =>
      rw [hk] at h
      cases h
      refine ⟨tail, hk, ?_⟩
      have hs : tail <:+ (rev'.reverse ++ [c]) ++ tail := List.suffix_append _ _
      simpa [List.append_assoc] using hs
    | none =>
      rw [hk] at h
      obtain ⟨u, hu, hsuf⟩ := ih h
      refine ⟨u, hu, ?_⟩
      simpa [List.append_assoc] using hsuf

theorem afterWs_exists {α : Type} {k : List Char → Option α} {s : List Char} {r : α}
    (h : afterWs k s = some r) : ∃ u, k u = some r ∧ u <:+ s := by
  obtain ⟨u, hu, hsuf⟩ := tryBack_exists h
  refine ⟨u, hu, ?_⟩
  simpa [List.takeWhile_append_dropWhile] using hsuf

theorem afterColons_exists {α : Type} {k : List Char → Option α} {s : List Char} {r : α}
    (h : afterColons k s = some r) : ∃ u, k u = some r ∧ u <:+ s := by
  obtain ⟨u, hu, hsuf⟩ := tryBack_exists h
  obtain ⟨v, hv, hsuf2⟩ := afterWs_exists hu
  refine ⟨v, hv, hsuf2.trans ?_⟩
  simpa [List.takeWhile_append_dropWhile] using hsuf

theorem findFirst_exists {α : Type} {p : List Char → Option α} :
    ∀ {text : List Char} {r : α},
      findFirst p text = some r → ∃ s, p s = some r ∧ s <:+ text := by
  intro text
  induction text with
  | nil =>
    intro r h
    rw [findFirst] at h
    exact ⟨[], h, by simp⟩
  | cons c t ih =>
    intro r h
    rw [findFirst] at h
    cases hp : p (c :: t) with
    | some v =>
      rw [hp] at h
      cases h
      exact ⟨c :: t, hp, by simp⟩
    | none =>
      rw [hp] at h
      obtain ⟨s, hs, hsuf⟩ := ih h
      exact ⟨s, hs, hsuf.trans (List.suffix_cons c t)⟩

/-- Any capture produced through `scalarFind` is a non-empty maximal
run of its class (in particular: every character satisfies the class). -/
theorem scalarFind_chars {label : List Char} {ok : Char → Bool} {text cap : List Char}
    (h : scalarFind label ok text = some cap) :
    cap ≠ [] ∧ ∀ c ∈ cap, ok c = true := by
  obtain ⟨s, hs, _⟩ := findFirst_exists h
  rw [withLabel] at hs
  split at hs
  · obtain ⟨u, hu, _⟩ := afterColons_exists hs
    obtain ⟨hc, hne⟩ := capPlus_spec hu
    exact ⟨hne, fun c hc' => List.mem_takeWhile_imp (hc ▸ hc')⟩
  · cases hs

theorem jsTrim_subset {l : List Char} : ∀ c ∈ jsTrim l, c ∈ l := by
  intro c hc
  unfold jsTrim at hc
  rw [List.mem_reverse] at hc
  have h1 := (List.dropWhile_suffix (l := (l.dropWhile jsSpace).reverse) jsSpace).subset hc
  rw [List.mem_reverse] at h1
  exact (List.dropWhile_suffix jsSpace).subset h1

/-! ## Claim theorems -/

/-- C1: `extractResumeData` raises its designated error exactly when the
OCR result is missing, or its page list is absent or empty; for every
OCR result with at least one page it returns a record (the pure
`extractCore` output) without raising, regardless of page content. -/
theorem extract_raises_iff_empty_pages (o : Option OCRResponse) :
    (extractResumeData o = .error ocrErrMsg ↔
      o = none ∨ ∃ r, o = some r ∧ (r.pages = none ∨ r.pages = some [])) ∧
    (∀ r ps, o = some r → r.pages = some ps → ps ≠ [] →
      extractResumeData o = .ok (extractCore (allTextOf ps))) := by
  constructor
  · constructor
    · intro h
      cases o with
      | none => exact Or.inl rfl
      | some r =>
        cases hp : r.pages with
        | none => exact Or.inr ⟨r, rfl, Or.inl hp⟩
        | some ps =>
          cases ps with
          | nil => exact Or.inr ⟨r, rfl, Or.inr hp⟩
          | cons p ps' => simp [extractResumeData, hp] at h
    · intro h
      rcases h with h | ⟨r, rfl, h⟩
      · subst h; rfl
      · rcases h with h | h <;> simp [extractResumeData, h]
  · intro r ps ho hp hne
    subst ho
    cases ps with
    | nil => exact absurd rfl hne
    | cons p ps' => simp [extractResumeData, hp]

theorem extract_raises_iff_empty_pages_w :
    extractResumeData (some ⟨some [⟨some "氏名：山田太郎"⟩]⟩) =
      .ok (extractCore (allTextOf [⟨some "氏名：山田太郎"⟩])) ∧
    extractResumeData (some ⟨some []⟩) = .error ocrErrMsg :=
  ⟨(extract_raises_iff_empty_pages _).2 _ _ rfl rfl (by simp),
   (extract_raises_iff_empty_pages _).1.mpr (Or.inr ⟨_, rfl, Or.inr rfl⟩)⟩

/-- C9: the fields `alternativeAddress`, `alternativeAddressKana` and
`alternativePhoneNumber`, though declared, are never assigned by any
extraction step, so they are absent in every returned record. -/
theorem alternative_fields_unset (o : Option OCRResponse) (d : ExtractedResumeData)
    (h : extractResumeData o = .ok d) :
    d.alternativeAddress = none ∧ d.alternativeAddressKana = none ∧
      d.alternativePhoneNumber = none := by
  cases o with
  | none => simp [extractResumeData] at h
  | some r =>
    cases hp : r.pages with
    | none => simp [extractResumeData, hp] at h
    | some ps =>
      cases ps with
      | nil => simp [extractResumeData, hp] at h
      | cons p ps' =>
        simp only [extractResumeData, hp, Except.ok.injEq] at h
        subst h
        exact ⟨rfl, rfl, rfl⟩

theorem alternative_fields_unset_w :
    (extractCore (allTextOf [⟨some "連絡先：東京都"⟩])).alternativeAddress = none ∧
    (extractCore (allTextOf [⟨some "連絡先：東京都"⟩])).alternativeAddressKana = none ∧
    (extractCore (allTextOf [⟨some "連絡先：東京都"⟩])).alternativePhoneNumber = none :=
  alternative_fields_unset (some ⟨some [⟨some "連絡先：東京都"⟩]⟩) _ rfl

/-- C7: failures of the storage layer never propagate: `saveOCRResult`
returns the new record even when `setItem` throws (and leaves the slot
unchanged), and `getStoredOCRResults` returns the empty list when
`getItem` throws or the stored value fails to parse. -/
theorem storage_failures_degrade :
    (∀ ls result fn nid now, (saveOCRResult ls result fn nid now).2 =
        { id := nid, timestamp := now, filename := fn, result := result }) ∧
    (∀ ls result fn nid now, ls.setThrows = true →
        (saveOCRResult ls result fn nid now).1 = ls) ∧
    (∀ ls, ls.getThrows = true → getStoredOCRResults ls = []) ∧
    (∀ ls, ls.content = .corrupt → getStoredOCRResults ls = []) := by
  refine ⟨fun ls r fn nid now => rfl,
    fun ls r fn nid now h => by simp [saveOCRResult, h],
    fun ls h => by simp [getStoredOCRResults, h],
    fun ls h => ?_⟩
  cases hg : ls.getThrows <;> simp [getStoredOCRResults, hg, h]

theorem storage_failures_degrade_w :
    (saveOCRResult ⟨.val [], false, true⟩ ⟨none⟩ "f" "i" 3).2 =
      ⟨"i", 3, "f", ⟨none⟩⟩ ∧
    (saveOCRResult ⟨.val [], false, true⟩ ⟨none⟩ "f" "i" 3).1 = ⟨.val [], false, true⟩ ∧
    getStoredOCRResults ⟨.val [⟨"a", 1, "b", ⟨none⟩⟩], true, false⟩ = [] ∧
    getStoredOCRResults ⟨.corrupt, false, false⟩ = [] :=
  ⟨storage_failures_degrade.1 _ _ _ _ _,
   storage_failures_degrade.2.1 _ _ _ _ _ rfl,
   storage_failures_degrade.2.2.1 _ rfl,
   storage_failures_degrade.2.2.2 _ rfl⟩

/-- C4: a successful save stores the new record prepended to the
previous list, capped at 10 entries: the result has at most 10 entries,
the new record sits at index 0, and when the previous list already had
10 entries the one dropped is exactly its last (oldest) element. -/
theorem save_caps_history (ls : LocalStorage) (result : OCRResponse)
    (fn nid : String) (now : Nat) (hset : ls.setThrows = false) :
    ∀ stored, (saveOCRResult ls result fn nid now).1.content = .val stored →
      stored = ((saveOCRResult ls result fn nid now).2 :: getStoredOCRResults ls).take 10 ∧
      stored.length ≤ 10 ∧
      stored.head? = some (saveOCRResult ls result fn nid now).2 ∧
      ((getStoredOCRResults ls).length = 10 →
        stored = (saveOCRResult ls result fn nid now).2 ::
          (getStoredOCRResults ls).dropLast) := by
  intro stored h
  simp only [saveOCRResult, hset, Bool.false_eq_true, if_false, SlotVal.val.injEq] at h ⊢
  subst h
  refine ⟨rfl, ?_, ?_, ?_⟩
  · simp [List.length_take]
  · rw [List.take_succ_cons]
    rfl
  · intro hlen
    rw [List.take_succ_cons, List.dropLast_eq_take, hlen]

theorem save_caps_history_w :
    (saveOCRResult wLs ⟨none⟩ "f" "new" 11).1.content = .val wStored ∧
    wStored = ((saveOCRResult wLs ⟨none⟩ "f" "new" 11).2 ::
      getStoredOCRResults wLs).take 10 ∧
    wStored.length ≤ 10 ∧
    wStored.head? = some (saveOCRResult wLs ⟨none⟩ "f" "new" 11).2 ∧
    wStored = (saveOCRResult wLs ⟨none⟩ "f" "new" 11).2 ::
      (getStoredOCRResults wLs).dropLast := by
  have h := save_caps_history wLs ⟨none⟩ "f" "new" 11 rfl wStored (by rfl)
  exact ⟨by rfl, h.1, h.2.1, h.2.2.1, h.2.2.2 (by rfl)⟩

/-- C10: `deleteStoredOCRResult` (with working storage and a parseable
stored list) returns `true` iff some stored entry bears the id; on
`true` the stored list becomes the original with exactly the entries of
that id removed, order preserved; on `false` nothing changes. -/
theorem delete_spec (ls : LocalStorage) (id : String) (l : List StoredOCRResult)
    (hc : ls.content = .val l) (hg : ls.getThrows = false) (hs : ls.setThrows = false) :
    ((deleteStoredOCRResult ls id).2 = true ↔ ∃ r ∈ l, r.id = id) ∧
    ((deleteStoredOCRResult ls id).2 = true →
      (deleteStoredOCRResult ls id).1 =
        { ls with content := .val (l.filter (fun r => r.id ≠ id)) } ∧
      (l.filter (fun r => r.id ≠ id)).Sublist l ∧
      ∀ r, r ∈ l.filter (fun r => r.id ≠ id) ↔ (r ∈ l ∧ r.id ≠ id)) ∧
    ((deleteStoredOCRResult ls id).2 = false → (deleteStoredOCRResult ls id).1 = ls) := by
  have hres : getStoredOCRResults ls = l := by simp [getStoredOCRResults, hg, hc]
  by_cases heq : l.length = (l.filter (fun r => r.id ≠ id)).length
  · have hdel : deleteStoredOCRResult ls id = (ls, false) := by
      simp [deleteStoredOCRResult, hres, heq]
    have hall : ∀ r ∈ l, r.id ≠ id := by
      intro r hr
      have := List.filter_length_eq_length.mp heq.symm r hr
      simpa using this
    rw [hdel]
    refine ⟨?_, ?_, fun _ => rfl⟩
    · simp only [Bool.false_eq_true, false_iff]
      rintro ⟨r, hr, hid⟩
      exact hall r hr hid
    · intro hcontra
      simp at hcontra
  · have hdel : deleteStoredOCRResult ls id =
        ({ ls with content := .val (l.filter (fun r => r.id ≠ id)) }, true) := by
      have heq' : ¬l.length = (List.filter (fun r => !decide (r.id = id)) l).length := by
        simpa using heq
      simp [deleteStoredOCRResult, hres, heq', hs]
    have hex : ∃ r ∈ l, r.id = id := by
      by_contra hno
      push_neg at hno
      have hflen : (l.filter (fun r => r.id ≠ id)).length = l.length :=
        List.filter_length_eq_length.mpr (fun a ha => by simpa using hno a ha)
      exact heq hflen.symm
    rw [hdel]
    refine ⟨by simp [hex], ?_, ?_⟩
    · intro _
      exact ⟨rfl, List.filter_sublist l, fun r => by simp⟩
    · intro hcontra
      simp at hcontra


theorem delete_spec_w :
    ((deleteStoredOCRResult ⟨.val [⟨"a", 1, "f", ⟨none⟩⟩, ⟨"b", 2, "g", ⟨none⟩⟩],
        false, false⟩ "a").2 = true ↔
      ∃ r ∈ [(⟨"a", 1, "f", ⟨none⟩⟩ : StoredOCRResult), ⟨"b", 2, "g", ⟨none⟩⟩],
        r.id = "a") ∧
    ((deleteStoredOCRResult ⟨.val [⟨"a", 1, "f", ⟨none⟩⟩, ⟨"b", 2, "g", ⟨none⟩⟩],
        false, false⟩ "a").2 = true →
      (deleteStoredOCRResult ⟨.val [⟨"a", 1, "f", ⟨none⟩⟩, ⟨"b", 2, "g", ⟨none⟩⟩],
        false, false⟩ "a").1 =
        { (⟨.val [⟨"a", 1, "f", ⟨none⟩⟩, ⟨"b", 2, "g", ⟨none⟩⟩], false, false⟩ :
            LocalStorage) with
          content := .val ([(⟨"a", 1, "f", ⟨none⟩⟩ : StoredOCRResult),
            ⟨"b", 2, "g", ⟨none⟩⟩].filter (fun r => r.id ≠ "a")) } ∧
      ([(⟨"a", 1, "f", ⟨none⟩⟩ : StoredOCRResult), ⟨"b", 2, "g", ⟨none⟩⟩].filter
          (fun r => r.id ≠ "a")).Sublist
        [⟨"a", 1, "f", ⟨none⟩⟩, ⟨"b", 2, "g", ⟨none⟩⟩] ∧
      ∀ r, r ∈ [(⟨"a", 1, "f", ⟨none⟩⟩ : StoredOCRResult), ⟨"b", 2, "g", ⟨none⟩⟩].filter
            (fun r => r.id ≠ "a") ↔
          (r ∈ [(⟨"a", 1, "f", ⟨none⟩⟩ : StoredOCRResult), ⟨"b", 2, "g", ⟨none⟩⟩] ∧
            r.id ≠ "a")) ∧
    ((deleteStoredOCRResult ⟨.val [⟨"a", 1, "f", ⟨none⟩⟩, ⟨"b", 2, "g", ⟨none⟩⟩],
        false, false⟩ "a").2 = false →
      (deleteStoredOCRResult ⟨.val [⟨"a", 1, "f", ⟨none⟩⟩, ⟨"b", 2, "g", ⟨none⟩⟩],
        false, false⟩ "a").1 =
        ⟨.val [⟨"a", 1, "f", ⟨none⟩⟩, ⟨"b", 2, "g", ⟨none⟩⟩], false, false⟩) :=
  delete_spec _ "a" _ rfl rfl rfl

theorem extractCore_birthDate (text : List Char) :
    (extractCore text).birthDate = trimmedField (scalarFind "生年月日".data bdCh text) :=
  rfl

theorem extractCore_age (text : List Char) :
    (extractCore text).age = (match scalarFind "生年月日".data bdCh text with
      | some _ => ageFind text
      | none => none) :=
  rfl

/-- C3: the birth-date capture stops before any opening parenthesis or
newline and is stored trimmed; the age comes from the second,
independent `（満 N 歳` match attempted only when the birth-date label
matched, so without the parenthetical annotation the age stays unset
while the birth date is stored. -/
theorem birthdate_age_rules (text : List Char) :
    (∀ s, (extractCore text).birthDate = some s → ∀ c ∈ s.data, bdCh c = true) ∧
    ((extractCore text).age.isSome = true → (extractCore text).birthDate.isSome = true) ∧
    (∀ n, (extractCore text).age = some n → ageFind text = some n) ∧
    (ageFind text = none → (extractCore text).age = none) ∧
    (∀ cap, scalarFind "生年月日".data bdCh text = some cap →
      (extractCore text).birthDate = some (String.mk (jsTrim cap))) := by
  refine ⟨?_, ?_, ?_, ?_, ?_⟩
  · intro s hs c hc
    rw [extractCore_birthDate] at hs
    cases hcap : scalarFind "生年月日".data bdCh text with
    | none => rw [hcap] at hs; cases hs
    | some cap =>
      rw [hcap] at hs
      simp only [trimmedField, Option.map_some', Option.some.injEq] at hs
      subst hs
      obtain ⟨_, hchars⟩ := scalarFind_chars hcap
      exact hchars c (jsTrim_subset c hc)
  · intro h
    rw [extractCore_age] at h
    rw [extractCore_birthDate]
    cases hcap : scalarFind "生年月日".data bdCh text with
    | none => rw [hcap] at h; cases h
    | some cap => simp [hcap, trimmedField]
  · intro n h
    rw [extractCore_age] at h
    cases hcap : scalarFind "生年月日".data bdCh text with
    | none => rw [hcap] at h; cases h
    | some cap => rw [hcap] at h; exact h
  · intro h
    rw [extractCore_age]
    cases hcap : scalarFind "生年月日".data bdCh text with
    | none => rfl
    | some cap => rw [h]
  · intro cap hcap
    rw [extractCore_birthDate, hcap]
    rfl

theorem birthdate_age_rules_w :
    (extractCore "生年月日：1990年5月3日\nその他".data).age = none ∧
    ageFind "生年月日：1990年5月3日（満34歳）".data = some 34 ∧
    (extractCore "生年月日：1990年5月3日（満34歳）".data).birthDate =
      some (String.mk (jsTrim "1990年5月3日".data)) :=
  ⟨(birthdate_age_rules _).2.2.2.1 (by rfl),
   (birthdate_age_rules _).2.2.1 34 (by rfl),
   (birthdate_age_rules _).2.2.2.2 "1990年5月3日".data (by rfl)⟩

theorem postalAt_spec {s pd : List Char} (h : postalAt s = some pd) :
    ∃ t, s = '〒' :: t ∧ pd <+: t.dropWhile jsSpace ∧ pd ≠ [] ∧
      ∀ c ∈ pd, jsSpace c = false := by
  cases s with
  | nil => cases h
  | cons c t =>
    simp only [postalAt] at h
    split at h
    · rename_i hc
      subst hc
      split at h
      · rename_i hd3
        split at h
        · rename_i u hu
          split at h
          · rename_i hd4
            cases h
            rw [Bool.and_eq_true, decide_eq_true_eq] at hd3 hd4
            refine ⟨t, rfl, ?_, by simp, ?_⟩
            · refine ⟨u.drop 4, ?_⟩
              rw [List.append_assoc, List.cons_append, List.take_append_drop,
                ← hu, List.take_append_drop]
            · intro c hc
              rcases List.mem_append.mp hc with hmem | hmem
              · exact digit_not_space (List.all_eq_true.mp hd3.2 c hmem)
              · rcases List.mem_cons.mp hmem with rfl | hmem
                · decide
                · exact digit_not_space (List.all_eq_true.mp hd4.2 c hmem)
          · cases h
        · cases h
      · cases h
    · cases h

theorem postalScan_spec {cap pd : List Char} (h : postalScan cap = some pd) :
    '〒' ∈ cap ∧ pd <:+: cap ∧ pd ≠ [] ∧ ∀ c ∈ pd, jsSpace c = false := by
  obtain ⟨s, hs, hsuf⟩ := findFirst_exists h
  obtain ⟨t, rfl, hpre, hne, hns⟩ := postalAt_spec hs
  refine ⟨hsuf.subset (by simp), ?_, hne, hns⟩
  have h1 : pd <:+: t.dropWhile jsSpace := hpre.isInfix
  have h2 : t.dropWhile jsSpace <:+ '〒' :: t :=
    (List.dropWhile_suffix jsSpace).trans (List.suffix_cons '〒' t)
  exact (h1.trans h2.isInfix).trans hsuf.isInfix

theorem infix_dropWhile_of_not {p : Char → Bool} {sub : List Char} :
    ∀ {l}, sub ≠ [] → (∀ c ∈ sub, p c = false) → sub <:+: l → sub <:+: l.dropWhile p
  | [], hne, _, hin => by
    rw [List.infix_nil] at hin
    exact absurd hin hne
  | c :: t, hne, hns, hin => by
    by_cases hc : p c = true
    · rw [List.dropWhile_cons, if_pos hc]
      rcases List.infix_cons_iff.mp hin with hpre | hinf
      · cases sub with
        | nil => exact absurd rfl hne
        | cons d ds =>
          obtain ⟨hd, _⟩ := List.cons_prefix_cons.mp hpre
          have hdns := hns d (by simp)
          rw [hd, hc] at hdns
          cases hdns
      · exact infix_dropWhile_of_not hne hns hinf
    · rw [List.dropWhile_cons, if_neg hc]
      exact hin

theorem infix_jsTrim {sub l : List Char} (hne : sub ≠ [])
    (hns : ∀ c ∈ sub, jsSpace c = false) (h : sub <:+: l) : sub <:+: jsTrim l := by
  have h1 : sub <:+: l.dropWhile jsSpace := infix_dropWhile_of_not hne hns h
  have h2 : sub.reverse <:+: (l.dropWhile jsSpace).reverse := List.reverse_infix.mpr h1
  have h3 : sub.reverse <:+: ((l.dropWhile jsSpace).reverse).dropWhile jsSpace :=
    infix_dropWhile_of_not (by simpa using hne) (fun c hc => hns c (by simpa using hc)) h2
  have h4 := List.reverse_infix.mpr h3
  simpa [jsTrim] using h4

theorem extractCore_address (text : List Char) :
    (extractCore text).address = trimmedField (addrFind text) :=
  rfl

theorem extractCore_postalCode (text : List Char) :
    (extractCore text).postalCode = (match addrFind text with
      | some cap => (postalScan cap).map String.mk
      | none => none) :=
  rfl

/-- C6: the postal code is only set when the address is, it is found by
the nested `〒 NNN-NNNN` search inside the address capture (never
against the raw text — witness the concrete page whose `〒` sits on the
line after the address: the postal code stays unset), and finding it
does not strip the `〒` marker or the postal digits from the stored
address. -/
theorem postal_nested_in_address (text : List Char) :
    ((extractCore text).postalCode.isSome = true →
      (extractCore text).address.isSome = true) ∧
    (∀ p, (extractCore text).postalCode = some p →
      ∃ cap, addrFind text = some cap ∧ postalScan cap = some p.data ∧
        (extractCore text).address = some (String.mk (jsTrim cap)) ∧
        '〒' ∈ jsTrim cap ∧ p.data <:+: jsTrim cap) ∧
    ((extractCore "現住所：東京都新宿区\n〒123-4567".data).postalCode = none ∧
      (extractCore "現住所：東京都新宿区\n〒123-4567".data).address = some "東京都新宿区") := by
  refine ⟨?_, ?_, by constructor <;> rfl⟩
  · intro h
    rw [extractCore_postalCode] at h
    rw [extractCore_address]
    cases hcap : addrFind text with
    | none => rw [hcap] at h; cases h
    | some cap => simp [hcap, trimmedField]
  · intro p hp
    rw [extractCore_postalCode] at hp
    cases hcap : addrFind text with
    | none => rw [hcap] at hp; cases hp
    | some cap =>
      simp only [hcap] at hp
      cases hps : postalScan cap with
      | none =>
        simp only [hps, Option.map_none'] at hp
        cases hp
      | some pd =>
        simp only [hps] at hp
        simp only [Option.map_some', Option.some.injEq] at hp
        subst hp
        obtain ⟨hmem, hinf, hne, hns⟩ := postalScan_spec hps
        refine ⟨cap, rfl, hps, by rw [extractCore_address, hcap]; rfl, ?_, ?_⟩
        · obtain ⟨s, t, rfl⟩ := List.append_of_mem hmem
          have hsing : ['〒'] <:+: jsTrim (s ++ '〒' :: t) :=
            infix_jsTrim (by simp) (by intro c hc; simp at hc; subst hc; decide)
              ⟨s, t, by simp⟩
          obtain ⟨a, b, hab⟩ := hsing
          rw [← hab]
          simp
        · exact infix_jsTrim hne hns hinf

theorem postal_nested_in_address_w :
    (extractCore "現住所：〒123-4567 東京都".data).address.isSome = true :=
  (postal_nested_in_address _).1 (by rfl)

theorem takeUntil_pre (terms : List (List Char)) : ∀ l, takeUntil terms l <+: l
  | [] => by rw [takeUntil]
  | c :: t => by
    rw [takeUntil]
    split
    · exact List.nil_prefix
    · exact (List.cons_prefix_cons).mpr ⟨rfl, takeUntil_pre terms t⟩

theorem takeUntil_no_term {terms : List (List Char)} {tm : List Char}
    (htm : tm ∈ terms) (hne : tm ≠ []) :
    ∀ l, ¬ (tm <:+: takeUntil terms l)
  | [], hin => by
    rw [takeUntil] at hin
    rw [List.infix_nil] at hin
    exact hne hin
  | c :: t, hin => by
    rw [takeUntil] at hin
    split at hin
    · rw [List.infix_nil] at hin
      exact hne hin
    · rename_i hcond
      rcases List.infix_cons_iff.mp hin with hpre | hinf
      · have h1 : tm <+: c :: t :=
          hpre.trans ((List.cons_prefix_cons).mpr ⟨rfl, takeUntil_pre terms t⟩)
        exact hcond (List.any_eq_true.mpr
          ⟨tm, htm, List.isPrefixOf_iff_prefix.mpr h1⟩)
      · exact takeUntil_no_term htm hne t hinf

theorem sectionFind_capture {header : List Char} {terms : List (List Char)}
    {text cap : List Char} (h : sectionFind header terms text = some cap) :
    ∃ body, cap = takeUntil terms body := by
  obtain ⟨s, hs, _⟩ := findFirst_exists h
  cases hh : headerAt header s with
  | none =>
    simp only [hh] at hs
    exact Option.noConfusion hs
  | some body =>
    simp only [hh, Option.some.injEq] at hs
    exact ⟨body, hs.symm⟩

/-- C2 (amended): each repeated-entry section capture is bounded
non-greedily by its own terminator set — 職歴 alone for 学歴;
免許・資格/健康状態/趣味 for 職歴; 健康状態/趣味 for 免許・資格 — or by
the end of text, so a capture never contains one of its own
terminators; on the spec's two-row example the education list has
exactly two entries and the captured text does not contain the 職歴
header.  (The original claim's single four-header boundary set for
every section is refuted by `eduSection_swallows_later_header`.) -/
theorem section_boundaries (text : List Char) :
    (∀ cap, eduCapture text = some cap → ¬ ("職歴".data <:+: cap)) ∧
    (∀ cap, workCapture text = some cap →
      ¬ ("免許・資格".data <:+: cap) ∧ ¬ ("健康状態".data <:+: cap) ∧
        ¬ ("趣味".data <:+: cap)) ∧
    (∀ cap, licCapture text = some cap →
      ¬ ("健康状態".data <:+: cap) ∧ ¬ ("趣味".data <:+: cap)) ∧
    ((extractCore eduExample.data).educationHistory =
        some [⟨"2020", "4", "A高校入学"⟩, ⟨"2023", "3", "A高校卒業"⟩] ∧
      eduCapture eduExample.data =
        some "2020年4月 A高校入学\n2023年3月 A高校卒業\n".data ∧
      ¬ ("職歴".data <:+: "2020年4月 A高校入学\n2023年3月 A高校卒業\n".data)) := by
  refine ⟨?_, ?_, ?_, by rfl, by rfl, by decide⟩
  · intro cap hcap
    obtain ⟨body, rfl⟩ := sectionFind_capture hcap
    exact takeUntil_no_term (by simp) (by decide) body
  · intro cap hcap
    obtain ⟨body, rfl⟩ := sectionFind_capture hcap
    exact ⟨takeUntil_no_term (by simp) (by decide) body,
      takeUntil_no_term (by simp) (by decide) body,
      takeUntil_no_term (by simp) (by decide) body⟩
  · intro cap hcap
    obtain ⟨body, rfl⟩ := sectionFind_capture hcap
    exact ⟨takeUntil_no_term (by simp) (by decide) body,
      takeUntil_no_term (by simp) (by decide) body⟩

theorem section_boundaries_w :
    ¬ ("職歴".data <:+: "2020年4月 A高校入学\n2023年3月 A高校卒業\n".data) :=
  (section_boundaries eduExample.data).1 _ (by decide)

/-- C2 counterexample: with no 職歴 header in the text, the education
capture runs to the end of the text, straight past the 健康状態 header
that the claim's four-header boundary set would stop at: the header
appears inside the captured text, and the row after it is counted as an
education entry. -/
theorem eduSection_swallows_later_header :
    eduCapture eduCx.data =
      some "2020年4月 X高校入学\n健康状態\n2021年5月 通院なし".data ∧
    ("健康状態".data <:+: "2020年4月 X高校入学\n健康状態\n2021年5月 通院なし".data) ∧
    (extractCore eduCx.data).educationHistory =
      some [⟨"2020", "4", "X高校入学"⟩, ⟨"2021", "5", "通院なし"⟩] := by
  refine ⟨by rfl, by decide, by rfl⟩

theorem notNL_no_sep_dot {c : Char} (h : notNL c = true)
    (h2 : c.toNat ≠ 8232) (h3 : c.toNat ≠ 8233) : dotCh c = true := by
  simp only [notNL, Bool.not_eq_true', Bool.or_eq_false_iff,
    decide_eq_false_iff_not] at h
  simp only [dotCh, Bool.not_eq_true', Bool.or_eq_false_iff,
    decide_eq_false_iff_not]
  omega

theorem takeWhile_eq_nil {p : Char → Bool} {l : List Char}
    (h : ∀ c t, l = c :: t → p c = false) : l.takeWhile p = [] := by
  cases l with
  | nil => rfl
  | cons c t =>
    rw [List.takeWhile_cons, if_neg]
    simp [h c t rfl]

theorem dropWhile_eq_self {p : Char → Bool} {l : List Char}
    (h : ∀ c t, l = c :: t → p c = false) : l.dropWhile p = l := by
  cases l with
  | nil => rfl
  | cons c t =>
    rw [List.dropWhile_cons, if_neg]
    simp [h c t rfl]

theorem head_cond_ws_cons {w : List Char} {d : Char} {rest : List Char} {p : Char → Bool}
    (hw : ∀ c ∈ w, jsSpace c = true) (hsp : ∀ c, jsSpace c = true → p c = false)
    (hd : p d = false) :
    ∀ c t, w ++ d :: rest = c :: t → p c = false := by
  intro c t h
  cases w with
  | nil =>
    injection h with h1 h2
    subst h1
    exact hd
  | cons a w' =>
    injection h with h1 h2
    subst h1
    exact hsp a (hw a (by simp))

theorem ymFront_inv {s d1 d2 con rest : List Char}
    (h : ymFront s = some (d1, d2, con, rest)) :
    ∃ w1 w2 w3,
      con = d1 ++ w1 ++ '年' :: (w2 ++ d2 ++ w3 ++ ['月']) ∧
      s = con ++ rest ∧
      d1 ≠ [] ∧ (∀ c ∈ d1, jsDigit c = true) ∧
      d2 ≠ [] ∧ (∀ c ∈ d2, jsDigit c = true) ∧
      (∀ c ∈ w1, jsSpace c = true) ∧ (∀ c ∈ w2, jsSpace c = true) ∧
      (∀ c ∈ w3, jsSpace c = true) := by
  obtain ⟨hs, -⟩ := ymFront_spec h
  simp only [ymFront] at h
  split at h
  · cases h
  · rename_i hd1
    split at h
    · rename_i t2 hsplit
      split at h
      · cases h
      · rename_i hd2
        split at h
        · rename_i rest' hsplit2
          cases h
          refine ⟨_, _, _, rfl, hs, ?_, ?_, ?_, ?_, ?_, ?_, ?_⟩
          · intro he
            rw [he] at hd1
            simp at hd1
          · exact fun c hc => List.mem_takeWhile_imp hc
          · intro he
            rw [he] at hd2
            simp at hd2
          · exact fun c hc => List.mem_takeWhile_imp hc
          · exact fun c hc => List.mem_takeWhile_imp hc
          · exact fun c hc => List.mem_takeWhile_imp hc
          · exact fun c hc => List.mem_takeWhile_imp hc
        · cases h
    · cases h

theorem wsCapAux_inv {ok : Char → Bool} :
    ∀ {wRev tail w cap : List Char},
      (∀ c ∈ wRev, jsSpace c = true) →
      wsCapAux ok wRev tail = some (w, cap) →
      (∀ c ∈ w, jsSpace c = true) ∧ cap ≠ [] ∧ (∀ c ∈ cap, ok c = true) := by
  intro wRev
  induction wRev with
  | nil =>
    intro tail w cap _ h
    unfold wsCapAux at h
    cases hcp : capPlus ok tail with
    | none => rw [hcp] at h; cases h
    | some cap' =>
      rw [hcp] at h
      simp only [Option.map_some', Option.some.injEq, Prod.mk.injEq] at h
      obtain ⟨hw, hcap⟩ := h
      obtain ⟨hc, hne⟩ := capPlus_spec hcp
      subst hcap
      refine ⟨by rw [← hw]; simp, hne, fun c hc' => List.mem_takeWhile_imp (hc ▸ hc')⟩
  | cons c wRev' ih =>
    intro tail w cap hws h
    unfold wsCapAux at h
    cases hcp : capPlus ok tail with
    | none =>
      rw [hcp] at h
      exact ih (fun x hx => hws x (by simp [hx])) h
    | some cap' =>
      rw [hcp] at h
      cases h
      obtain ⟨hc, hne⟩ := capPlus_spec hcp
      refine ⟨?_, hne, fun x hx => List.mem_takeWhile_imp (hc ▸ hx)⟩
      intro x hx
      rw [List.mem_reverse] at hx
      exact hws x hx

theorem wsCap_inv {ok : Char → Bool} {r w cap : List Char}
    (h : wsCap ok r = some (w, cap)) :
    (∀ c ∈ w, jsSpace c = true) ∧ cap ≠ [] ∧ (∀ c ∈ cap, ok c = true) :=
  wsCapAux_inv
    (fun c hc => List.mem_takeWhile_imp (by simpa using hc)) h

theorem matchEntryAt_inv {s m : List Char} (h : matchEntryAt s = some m) :
    ∃ d1 d2 w1 w2 w3 w cap,
      m = d1 ++ w1 ++ '年' :: (w2 ++ d2 ++ w3 ++ '月' :: (w ++ cap)) ∧
      d1 ≠ [] ∧ (∀ c ∈ d1, jsDigit c = true) ∧
      d2 ≠ [] ∧ (∀ c ∈ d2, jsDigit c = true) ∧
      (∀ c ∈ w1, jsSpace c = true) ∧ (∀ c ∈ w2, jsSpace c = true) ∧
      (∀ c ∈ w3, jsSpace c = true) ∧ (∀ c ∈ w, jsSpace c = true) ∧
      cap ≠ [] ∧ (∀ c ∈ cap, notNL c = true) := by
  unfold matchEntryAt at h
  split at h
  · cases h
  · rename_i d1 d2 con rest hf
    split at h
    · cases h
    · rename_i w cap hw
      cases h
      obtain ⟨w1, w2, w3, hcon, -, hd1, hd1a, hd2, hd2a, hw1, hw2, hw3⟩ := ymFront_inv hf
      obtain ⟨hwa, hcne, hcapa⟩ := wsCap_inv hw
      refine ⟨d1, d2, w1, w2, w3, w, cap, ?_, hd1, hd1a, hd2, hd2a, hw1, hw2, hw3,
        hwa, hcne, hcapa⟩
      rw [hcon]
      simp [List.append_assoc]

theorem head_cond_nonempty {a Z : List Char} {p q : Char → Bool}
    (hne : a ≠ []) (ha : ∀ c ∈ a, q c = true) (hpq : ∀ c, q c = true → p c = false) :
    ∀ c t, a ++ Z = c :: t → p c = false := by
  intro c t h
  cases a with
  | nil => exact absurd rfl hne
  | cons x xs =>
    injection h with h1 _
    subst h1
    exact hpq x (ha x (by simp))

theorem ymFront_of_shape {d1 d2 w1 w2 w3 : List Char} (rest : List Char)
    (hd1 : d1 ≠ []) (hd1a : ∀ c ∈ d1, jsDigit c = true)
    (hd2 : d2 ≠ []) (hd2a : ∀ c ∈ d2, jsDigit c = true)
    (hw1 : ∀ c ∈ w1, jsSpace c = true) (hw2 : ∀ c ∈ w2, jsSpace c = true)
    (hw3 : ∀ c ∈ w3, jsSpace c = true) :
    ymFront (d1 ++ w1 ++ '年' :: (w2 ++ d2 ++ w3 ++ '月' :: rest))
      = some (d1, d2, d1 ++ w1 ++ '年' :: (w2 ++ d2 ++ w3 ++ ['月']), rest) := by
  have c1 : ∀ c t, w1 ++ '年' :: (w2 ++ d2 ++ w3 ++ '月' :: rest) = c :: t →
      jsDigit c = false :=
    head_cond_ws_cons hw1 (fun c h => space_not_digit h) (by decide)
  have c3 : ∀ c t, w3 ++ '月' :: rest = c :: t → jsDigit c = false :=
    head_cond_ws_cons hw3 (fun c h => space_not_digit h) (by decide)
  have c2 : ∀ c t, d2 ++ (w3 ++ '月' :: rest) = c :: t → jsSpace c = false :=
    head_cond_nonempty hd2 hd2a (fun c h => digit_not_space h)
  have h_t1 : (d1 ++ (w1 ++ '年' :: (w2 ++ d2 ++ w3 ++ '月' :: rest))).takeWhile jsDigit
      = d1 := by
    rw [takeWhile_append_all _ hd1a, takeWhile_eq_nil c1, List.append_nil]
  have h_t2 : (d1 ++ (w1 ++ '年' :: (w2 ++ d2 ++ w3 ++ '月' :: rest))).dropWhile jsDigit
      = w1 ++ '年' :: (w2 ++ d2 ++ w3 ++ '月' :: rest) := by
    rw [dropWhile_append_all _ hd1a, dropWhile_eq_self c1]
  have h_t3 : (w1 ++ '年' :: (w2 ++ d2 ++ w3 ++ '月' :: rest)).takeWhile jsSpace = w1 := by
    rw [takeWhile_append_all _ hw1, List.takeWhile_cons, if_neg (by decide),
      List.append_nil]
  have h_t4 : (w1 ++ '年' :: (w2 ++ d2 ++ w3 ++ '月' :: rest)).dropWhile jsSpace
      = '年' :: (w2 ++ d2 ++ w3 ++ '月' :: rest) := by
    rw [dropWhile_append_all _ hw1, List.dropWhile_cons, if_neg (by decide)]
  have h_t5 : (w2 ++ d2 ++ w3 ++ '月' :: rest).takeWhile jsSpace = w2 := by
    rw [List.append_assoc, List.append_assoc, takeWhile_append_all _ hw2,
      takeWhile_eq_nil c2, List.append_nil]
  have h_t6 : (w2 ++ d2 ++ w3 ++ '月' :: rest).dropWhile jsSpace
      = d2 ++ (w3 ++ '月' :: rest) := by
    rw [List.append_assoc, List.append_assoc, dropWhile_append_all _ hw2,
      dropWhile_eq_self c2]
  have h_t7 : (d2 ++ (w3 ++ '月' :: rest)).takeWhile jsDigit = d2 := by
    rw [takeWhile_append_all _ hd2a, takeWhile_eq_nil c3, List.append_nil]
  have h_t8 : (d2 ++ (w3 ++ '月' :: rest)).dropWhile jsDigit = w3 ++ '月' :: rest := by
    rw [dropWhile_append_all _ hd2a, dropWhile_eq_self c3]
  have h_t9 : (w3 ++ '月' :: rest).takeWhile jsSpace = w3 := by
    rw [takeWhile_append_all _ hw3, List.takeWhile_cons, if_neg (by decide),
      List.append_nil]
  have h_t10 : (w3 ++ '月' :: rest).dropWhile jsSpace = '月' :: rest := by
    rw [dropWhile_append_all _ hw3, List.dropWhile_cons, if_neg (by decide)]
  have hd1e : d1.isEmpty = false := by
    cases d1 with
    | nil => exact absurd rfl hd1
    | cons x xs => rfl
  have hd2e : d2.isEmpty = false := by
    cases d2 with
    | nil => exact absurd rfl hd2
    | cons x xs => rfl
  simp only [ymFront, List.append_assoc, List.cons_append, List.nil_append] at *
  simp only [h_t1, h_t2, h_t3, h_t4, h_t5, h_t6, h_t7, h_t8, h_t9, h_t10,
    hd1e, hd2e, Bool.false_eq_true, if_false]

theorem tryBack_capPlus_isSome {ok : Char → Bool} :
    ∀ {wRev tail : List Char},
      ((∃ c ∈ wRev, ok c = true) ∨ ∃ r, capPlus ok tail = some r) →
      ∃ r, tryBack (capPlus ok) wRev tail = some r := by
  intro wRev
  induction wRev with
  | nil =>
    intro tail h
    rcases h with ⟨c, hc, -⟩ | ⟨r, hr⟩
    · cases hc
    · exact ⟨r, by rw [tryBack]; exact hr⟩
  | cons c rev' ih =>
    intro tail h
    rw [tryBack]
    cases hcp : capPlus ok tail with
    | some v => exact ⟨v, rfl⟩
    | none =>
      apply ih
      rcases h with ⟨x, hx, hokx⟩ | ⟨r, hr⟩
      · rcases List.mem_cons.mp hx with rfl | hx'
        · right
          exact ⟨(x :: tail).takeWhile ok, by simp [capPlus, hokx]⟩
        · exact Or.inl ⟨x, hx', hokx⟩
      · rw [hcp] at hr
        cases hr

theorem afterWs_dot_some {w cap : List Char} (hw : ∀ c ∈ w, jsSpace c = true)
    (hcap : cap ≠ []) (hd : ∀ c ∈ cap, dotCh c = true) :
    ∃ r, afterWs (capPlus dotCh) (w ++ cap) = some r := by
  unfold afterWs
  apply tryBack_capPlus_isSome
  cases hdw : (w ++ cap).dropWhile jsSpace with
  | cons c0 t0 =>
    right
    have hns : jsSpace c0 = false := head_dropWhile_false hdw
    exact ⟨(c0 :: t0).takeWhile dotCh, by simp [capPlus, not_space_dot hns]⟩
  | nil =>
    left
    have htw : (w ++ cap).takeWhile jsSpace = w ++ cap := by
      have h0 := List.takeWhile_append_dropWhile (p := jsSpace) (l := w ++ cap)
      rw [hdw, List.append_nil] at h0
      exact h0
    cases cap with
    | nil => exact absurd rfl hcap
    | cons c0 t0 =>
      refine ⟨c0, ?_, hd c0 (by simp)⟩
      rw [htw, List.mem_reverse]
      simp

theorem innerAt_of_shape {d1 d2 w1 w2 w3 w cap : List Char}
    (hd1 : d1 ≠ []) (hd1a : ∀ c ∈ d1, jsDigit c = true)
    (hd2 : d2 ≠ []) (hd2a : ∀ c ∈ d2, jsDigit c = true)
    (hw1 : ∀ c ∈ w1, jsSpace c = true) (hw2 : ∀ c ∈ w2, jsSpace c = true)
    (hw3 : ∀ c ∈ w3, jsSpace c = true) (hw : ∀ c ∈ w, jsSpace c = true)
    (hcap : cap ≠ []) (hdot : ∀ c ∈ cap, dotCh c = true) :
    ∃ capd, innerAt (d1 ++ w1 ++ '年' :: (w2 ++ d2 ++ w3 ++ '月' :: (w ++ cap)))
      = some (d1, d2, capd) := by
  obtain ⟨r, hr⟩ := afterWs_dot_some hw hcap hdot
  refine ⟨r, ?_⟩
  simp only [innerAt,
    ymFront_of_shape (w ++ cap) hd1 hd1a hd2 hd2a hw1 hw2 hw3, hr,
    Option.map_some']

theorem findFirst_pos {α : Type} {p : List Char → Option α} {l : List Char} {r : α}
    (hne : l ≠ []) (h : p l = some r) : findFirst p l = some r := by
  cases l with
  | nil => exact absurd rfl hne
  | cons c t => simp only [findFirst, h]

theorem gScanAux_chars {fuel : Nat} :
    ∀ {s m : List Char}, m ∈ gScanAux fuel s →
      (∃ t, matchEntryAt t = some m) ∧ ∀ c ∈ m, c ∈ s := by
  induction fuel with
  | zero =>
    intro s m hm
    simp [gScanAux] at hm
  | succ n ih =>
    intro s m hm
    have hm' : m ∈ gScanCont (gScanAux n) s := hm
    unfold gScanCont at hm'
    revert hm'
    cases hme : matchEntryAt s with
    | some mm =>
      intro hm'
      rcases List.mem_cons.mp hm' with rfl | hrec
      · exact ⟨⟨s, hme⟩, fun c hc => (matchEntryAt_spec hme).2.subset hc⟩
      · obtain ⟨hex, hsub⟩ := ih hrec
        exact ⟨hex, fun c hc => List.drop_subset _ _ (hsub c hc)⟩
    | none =>
      cases s with
      | nil =>
        intro hm'
        cases hm'
      | cons c0 t =>
        intro hm'
        obtain ⟨hex, hsub⟩ := ih hm'
        exact ⟨hex, fun c hc => List.mem_cons_of_mem c0 (hsub c hc)⟩

theorem newlineK_inv {u body : List Char} (h : newlineK u = some body) :
    u = '\n' :: body := by
  unfold newlineK at h
  split at h
  · rename_i r
    cases h
    rfl
  · cases h

theorem headerAt_suffix {header s body : List Char}
    (h : headerAt header s = some body) : body <:+ s := by
  unfold headerAt at h
  split at h
  · obtain ⟨u, hu, hsuf⟩ := afterWs_exists h
    have hu' := newlineK_inv hu
    subst hu'
    exact ((List.suffix_cons '\n' body).trans hsuf).trans
      (List.drop_suffix header.length s)
  · cases h

theorem sectionFind_chars {header : List Char} {terms : List (List Char)}
    {text cap : List Char} (h : sectionFind header terms text = some cap) :
    ∀ c ∈ cap, c ∈ text := by
  obtain ⟨s, hs, hsuf⟩ := findFirst_exists h
  revert hs
  cases hh : headerAt header s with
  | none =>
    intro hs
    simp only [hh] at hs
    exact Option.noConfusion hs
  | some body =>
    intro hs
    simp only [hh, Option.some.injEq] at hs
    subst hs
    intro c hc
    have h1 : c ∈ body := (takeUntil_pre terms body).subset hc
    exact hsuf.subset ((headerAt_suffix hh).subset h1)

theorem extractCore_educationHistory (text : List Char) :
    (extractCore text).educationHistory = sectionEntries (eduCapture text) :=
  rfl

theorem extractCore_workHistory (text : List Char) :
    (extractCore text).workHistory = sectionEntries (workCapture text) :=
  rfl

theorem extractCore_licenses (text : List Char) :
    (extractCore text).licenses = sectionEntries (licCapture text) :=
  rfl

theorem sectionEntries_inv {capO : Option (List Char)} {hl : List HistEntry}
    (h : sectionEntries capO = some hl) :
    ∃ cap, capO = some cap ∧ hl = (gScan cap).map mkEntry := by
  cases capO with
  | none => cases h
  | some cap =>
    simp only [sectionEntries] at h
    split at h
    · cases h
    · revert h
      cases hg : gScan cap with
      | nil =>
        intro h
        exact Option.noConfusion h
      | cons mh mt =>
        intro h
        simp only [Option.some.injEq] at h
        exact ⟨cap, rfl, by rw [hg]; exact h.symm⟩

theorem entries_digit_of_capture {cap : List Char} {hl : List HistEntry}
    (hchars : ∀ c ∈ cap, c.toNat ≠ 8232 ∧ c.toNat ≠ 8233)
    (h : hl = (gScan cap).map mkEntry) :
    ∀ e ∈ hl, e.year ≠ "" ∧ e.year.data.all jsDigit = true ∧
      e.month ≠ "" ∧ e.month.data.all jsDigit = true := by
  subst h
  intro e he
  obtain ⟨m, hm, rfl⟩ := List.mem_map.mp he
  obtain ⟨⟨t, hmt⟩, hsub⟩ := gScanAux_chars hm
  obtain ⟨d1, d2, w1, w2, w3, w, cp, hm_eq, hd1, hd1a, hd2, hd2a, hw1, hw2, hw3,
    hwa, hcpne, hcpa⟩ := matchEntryAt_inv hmt
  have hdot : ∀ c ∈ cp, dotCh c = true := by
    intro c hc
    have hcm : c ∈ m := by
      rw [hm_eq]
      simp [hc]
    have hc2 := hchars c (hsub c hcm)
    exact notNL_no_sep_dot (hcpa c hc) hc2.1 hc2.2
  obtain ⟨capd, hinner⟩ :=
    innerAt_of_shape hd1 hd1a hd2 hd2a hw1 hw2 hw3 hwa hcpne hdot
  have hmne : m ≠ [] := (matchEntryAt_spec hmt).1
  have hscan : innerScan m = some (d1, d2, capd) := by
    unfold innerScan
    rw [hm_eq]
    refine findFirst_pos ?_ hinner
    rw [← hm_eq]
    exact hmne
  have hmk : mkEntry m = ⟨String.mk d1, String.mk d2, String.mk (jsTrim capd)⟩ := by
    unfold mkEntry
    rw [hscan]
  rw [hmk]
  refine ⟨?_, List.all_eq_true.mpr hd1a, ?_, List.all_eq_true.mpr hd2a⟩
  · intro hemp
    apply hd1
    have := congrArg String.data hemp
    simpa using this
  · intro hemp
    apply hd2
    have := congrArg String.data hemp
    simpa using this

/-- C8 (amended): over any text containing no U+2028/U+2029 line
separators, every entry of `educationHistory`, `workHistory` and
`licenses` has a non-empty all-digit year and month — the fallback
branch is unreachable there.  With such a separator as the only
description content the fallback IS reachable
(`entry_fallback_reachable`), because `[^\n\r]` of the outer row scan
admits U+2028/U+2029 while `.` of the inner decomposition does not. -/
theorem entries_digit_shape (text : List Char)
    (hno : ∀ c ∈ text, c.toNat ≠ 8232 ∧ c.toNat ≠ 8233) :
    ∀ hl, ((extractCore text).educationHistory = some hl ∨
        (extractCore text).workHistory = some hl ∨
        (extractCore text).licenses = some hl) →
      ∀ e ∈ hl, e.year ≠ "" ∧ e.year.data.all jsDigit = true ∧
        e.month ≠ "" ∧ e.month.data.all jsDigit = true := by
  intro hl hdisj e he
  rcases hdisj with h | h | h
  · rw [extractCore_educationHistory] at h
    obtain ⟨cap, hcap, hmap⟩ := sectionEntries_inv h
    have hcap' : sectionFind "学歴".data ["職歴".data] text = some cap := hcap
    exact entries_digit_of_capture
      (fun c hc => hno c (sectionFind_chars hcap' c hc)) hmap e he
  · rw [extractCore_workHistory] at h
    obtain ⟨cap, hcap, hmap⟩ := sectionEntries_inv h
    have hcap' : sectionFind "職歴".data
        ["免許・資格".data, "健康状態".data, "趣味".data] text = some cap := hcap
    exact entries_digit_of_capture
      (fun c hc => hno c (sectionFind_chars hcap' c hc)) hmap e he
  · rw [extractCore_licenses] at h
    obtain ⟨cap, hcap, hmap⟩ := sectionEntries_inv h
    have hcap' : sectionFind "免許・資格".data
        ["健康状態".data, "趣味".data] text = some cap := hcap
    exact entries_digit_of_capture
      (fun c hc => hno c (sectionFind_chars hcap' c hc)) hmap e he

theorem entries_digit_shape_w :
    (⟨"2020", "4", "A高校入学"⟩ : HistEntry).year ≠ "" ∧
    ((⟨"2020", "4", "A高校入学"⟩ : HistEntry).year.data.all jsDigit = true) ∧
    (⟨"2020", "4", "A高校入学"⟩ : HistEntry).month ≠ "" ∧
    ((⟨"2020", "4", "A高校入学"⟩ : HistEntry).month.data.all jsDigit = true) :=
  entries_digit_shape eduExample.data (by decide)
    [⟨"2020", "4", "A高校入学"⟩, ⟨"2023", "3", "A高校卒業"⟩] (Or.inl (by rfl))
    ⟨"2020", "4", "A高校入学"⟩ (by simp)

def sepCx : List Char := "学歴\n1年1月".data ++ [Char.ofNat 8232]

/-- C8 counterexample: the text `学歴\n1年1月` followed by the line
separator U+2028.  The outer `/g` row pattern matches `1年1月␨` (U+2028
is `\s` and `[^\n\r]`), but the inner `/(\d+)\s*年\s*(\d+)\s*月\s*(.+)/`
finds no match anywhere in it (`.` excludes U+2028), so the deliberate
fallback row with empty year and month is produced. -/
theorem entry_fallback_reachable :
    (extractCore sepCx).educationHistory = some [⟨"", "", "1年1月"⟩] := by
  rfl

theorem mem_optCell {β : Type} {o : Option β} {cell : String} {f : β → CellVal}
    {a : String} {v : CellVal} (h : (a, v) ∈ optCell o cell f) :
    a = cell ∧ ∃ x, o = some x ∧ v = f x := by
  cases o with
  | none => cases h
  | some x =>
    simp only [optCell, List.mem_singleton, Prod.mk.injEq] at h
    exact ⟨h.1, x, rfl, h.2⟩

theorem mem_listRows {colY colM colD : String} :
    ∀ {r : Nat} {l : List HistEntry} {a : String} {v : CellVal},
      (a, v) ∈ listRows colY colM colD r l →
      ∃ i, i < l.length ∧
        (a = colY ++ toString (r + i) ∨ a = colM ++ toString (r + i) ∨
          a = colD ++ toString (r + i)) := by
  intro r l
  induction l generalizing r with
  | nil => intro a v h; cases h
  | cons e es ih =>
    intro a v h
    simp only [listRows, List.mem_cons] at h
    rcases h with h | h | h | h
    · exact ⟨0, by simp, Or.inl (by simpa using congrArg Prod.fst h)⟩
    · exact ⟨0, by simp, Or.inr (Or.inl (by simpa using congrArg Prod.fst h))⟩
    · exact ⟨0, by simp, Or.inr (Or.inr (by simpa using congrArg Prod.fst h))⟩
    · obtain ⟨i, hi, hcase⟩ := ih h
      refine ⟨i + 1, by simpa using Nat.succ_lt_succ hi, ?_⟩
      have harith : r + 1 + i = r + (i + 1) := by omega
      rw [harith] at hcase
      exact hcase

theorem applyWrites_not_written :
    ∀ {ws : List (String × CellVal)} {sh : Sheet} {a : String},
      (∀ v, (a, v) ∉ ws) → applyWrites ws sh a = sh a := by
  intro ws
  induction ws with
  | nil => intro sh a _; rfl
  | cons wv rest ih =>
    obtain ⟨w1, w2⟩ := wv
    intro sh a h
    have step : applyWrites ((w1, w2) :: rest) sh =
        applyWrites rest (fun x => if x = w1 then some w2 else sh x) := rfl
    rw [step, ih (fun v hv => h v (List.mem_cons_of_mem (w1, w2) hv))]
    have hne : a ≠ w1 := by
      intro he
      exact h w2 (by rw [he]; exact List.mem_cons_self _ _)
    simp [hne]

/-- C5 (amended): an absent field contributes no cell write of its own;
the repeated-row regions are written only for present non-empty lists,
as three cells per entry starting at row 14 (education, columns A–C),
row 20 (work history, A–C) and row 14 (licenses, I–K); every write of
`generateResumeExcel` either targets one of the fifteen fixed scalar
cells or lies inside one of the three row regions; and a cell no write
targets keeps its template default.  The original claim's stronger
"absent field ⇒ its cell untouched" is refuted by
`absent_health_cell_overwritten`: the row regions are unbounded, so a
long enough licenses list reaches I17–I19 (and education reaches the
work rows), overwriting the cell mapped to a field that is absent. -/
theorem excel_frame (d : ExtractedResumeData) :
    (d.name = none → nameWrites d = []) ∧
    (d.nameKana = none → nameKanaWrites d = []) ∧
    (d.birthDate = none → birthDateWrites d = []) ∧
    (d.gender = none → genderWrites d = []) ∧
    (d.addressKana = none → addressKanaWrites d = []) ∧
    (d.postalCode = none → postalCodeWrites d = []) ∧
    (d.address = none → addressWrites d = []) ∧
    (d.phoneNumber = none → phoneWrites d = []) ∧
    (d.email = none → emailWrites d = []) ∧
    (d.healthCondition = none → healthWrites d = []) ∧
    (d.hobbies = none → hobbiesWrites d = []) ∧
    (d.nearestStation = none → stationWrites d = []) ∧
    (d.dependents = none → dependentsWrites d = []) ∧
    (d.hasSpouse = none → hasSpouseWrites d = []) ∧
    (d.supportingSpouse = none → supportingSpouseWrites d = []) ∧
    (d.educationHistory = none → eduWrites d = []) ∧
    (∀ l, d.educationHistory = some l →
      eduWrites d = if 0 < l.length then listRows "A" "B" "C" 14 l else []) ∧
    (d.workHistory = none → workWrites d = []) ∧
    (∀ l, d.workHistory = some l →
      workWrites d = if 0 < l.length then listRows "A" "B" "C" 20 l else []) ∧
    (d.licenses = none → licWrites d = []) ∧
    (∀ l, d.licenses = some l →
      licWrites d = if 0 < l.length then listRows "I" "J" "K" 14 l else []) ∧
    (∀ a v, (a, v) ∈ resumeWrites d →
      a ∈ (["B3", "B2", "A5", "D2", "B6", "B7", "A7", "F6", "F7", "I17", "I18",
        "I19", "L17", "L18", "L19"] : List String) ∨
      (a, v) ∈ eduWrites d ∨ (a, v) ∈ workWrites d ∨ (a, v) ∈ licWrites d) ∧
    (∀ a, (∀ v, (a, v) ∉ resumeWrites d) →
      ∀ template, generateResumeExcel d template a = template a) := by
  refine ⟨fun h => by simp [nameWrites, optCell, h],
    fun h => by simp [nameKanaWrites, optCell, h],
    fun h => by simp [birthDateWrites, optCell, h],
    fun h => by simp [genderWrites, optCell, h],
    fun h => by simp [addressKanaWrites, optCell, h],
    fun h => by simp [postalCodeWrites, optCell, h],
    fun h => by simp [addressWrites, optCell, h],
    fun h => by simp [phoneWrites, optCell, h],
    fun h => by simp [emailWrites, optCell, h],
    fun h => by simp [healthWrites, optCell, h],
    fun h => by simp [hobbiesWrites, optCell, h],
    fun h => by simp [stationWrites, optCell, h],
    fun h => by simp [dependentsWrites, optCell, h],
    fun h => by simp [hasSpouseWrites, optCell, h],
    fun h => by simp [supportingSpouseWrites, optCell, h],
    fun h => by simp [eduWrites, h],
    fun l h => by simp [eduWrites, h],
    fun h => by simp [workWrites, h],
    fun l h => by simp [workWrites, h],
    fun h => by simp [licWrites, h],
    fun l h => by simp [licWrites, h],
    ?_, ?_⟩
  · intro a v h
    simp only [resumeWrites, List.mem_append, or_assoc] at h
    rcases h with h | h | h | h | h | h | h | h | h | h | h | h | h | h | h | h | h | h
    · exact Or.inl (by simp [(mem_optCell h).1])
    · exact Or.inl (by simp [(mem_optCell h).1])
    · exact Or.inl (by simp [(mem_optCell h).1])
    · exact Or.inl (by simp [(mem_optCell h).1])
    · exact Or.inl (by simp [(mem_optCell h).1])
    · exact Or.inl (by simp [(mem_optCell h).1])
    · exact Or.inl (by simp [(mem_optCell h).1])
    · exact Or.inl (by simp [(mem_optCell h).1])
    · exact Or.inl (by simp [(mem_optCell h).1])
    · exact Or.inr (Or.inl h)
    · exact Or.inr (Or.inr (Or.inl h))
    · exact Or.inr (Or.inr (Or.inr h))
    · exact Or.inl (by simp [(mem_optCell h).1])
    · exact Or.inl (by simp [(mem_optCell h).1])
    · exact Or.inl (by simp [(mem_optCell h).1])
    · exact Or.inl (by simp [(mem_optCell h).1])
    · exact Or.inl (by simp [(mem_optCell h).1])
    · exact Or.inl (by simp [(mem_optCell h).1])
  · intro a h template
    exact applyWrites_not_written h

def licCx : ExtractedResumeData :=
  { licenses := some [⟨"2020", "1", "a"⟩, ⟨"2021", "2", "b"⟩, ⟨"2022", "3", "c"⟩,
      ⟨"2023", "4", "d"⟩] }

/-- C5 counterexample: four licenses, `healthCondition` absent.  The
licenses region starts at I14 with no bound, so the fourth entry's year
lands in I17 — the cell mapped to the absent `healthCondition` — and
the template default there is overwritten. -/
theorem absent_health_cell_overwritten :
    licCx.healthCondition = none ∧
    emptySheet "I17" = none ∧
    generateResumeExcel licCx emptySheet "I17" = some (.s "2023") :=
  ⟨rfl, rfl, rfl⟩

theorem excel_frame_w :
    nameWrites ({} : ExtractedResumeData) = [] ∧
    ∀ template, generateResumeExcel ({} : ExtractedResumeData) template "Z9"
      = template "Z9" :=
  ⟨(excel_frame {}).1 rfl,
   (excel_frame {}).2.2.2.2.2.2.2.2.2.2.2.2.2.2.2.2.2.2.2.2.2.2 "Z9"
     (fun v hv => by simp [resumeWrites, nameWrites, nameKanaWrites, birthDateWrites,
       genderWrites, addressKanaWrites, postalCodeWrites, addressWrites, phoneWrites,
       emailWrites, eduWrites, workWrites, licWrites, healthWrites, hobbiesWrites,
       stationWrites, dependentsWrites, hasSpouseWrites, supportingSpouseWrites,
       optCell] at hv)⟩

end Pdf2Md
